import Mathlib

/-!
Verification of the skoppig-svelte dataflow-graph core.

The embedding translates the TypeScript sources:
- src/lib/helpers/schema/schema.ts        (class FlowNode: connect, disconnect, update)
- src/lib/helpers/schema/schemaMethods.ts (cycleWith, rootsIn, exposedPorts, ...)
- src/lib/helpers/schema/graphMethods.ts  (toGraph, graphChildren, reverse, graphRoots)
- src/lib/helpers/compiler/evaluationGraph.ts (toTransformOrder, toTransforms,
  greedyColour, addColour, optimiseTransforms)

Modelling conventions:
- JavaScript object references between nodes are modelled as numeric ids; a graph
  state is a list of node records and lookup is by id (reference equality between
  live node objects corresponds to id equality, since ids are generated uniquely).
- Machine numbers are Nat (all indices in the source are small non-negative ints).
- JavaScript runtime errors (TypeError on undefined property access, thrown
  exceptions) are modelled with Option: none is an abnormal termination.
- While/recursion is modelled with an explicit fuel argument where the source
  loops; the fuel chosen in each wrapper is proved (or shown on the claims'
  hypotheses) to be sufficient, so none from fuel exhaustion coincides with
  divergence of the source.
-/

namespace Skoppig

/-- Error values from errors.ts: NotConnectedError, InputError (wrapping an input
index and a cause) and ProcessError (wrapping an opaque thrown cause, modelled
as a Nat). -/
inductive ErrVal where
  | notConnected : ErrVal
  | inputError (idx : Nat) (cause : ErrVal) : ErrVal
  | processError (cause : Nat) : ErrVal
deriving DecidableEq, Repr

/-- Result type from errors.ts: either data or an error. -/
inductive NodeResult where
  | data (v : Nat) : NodeResult
  | error (e : ErrVal) : NodeResult
deriving DecidableEq, Repr

/-- State of a FlowNode (schema.ts). The process capability is modelled as a
function from the list of input data values (none when the input slot is
unconnected or its cached value is an error, mirroring node?.cached.data) to
either a produced value or a thrown cause. -/
structure NodeSt where
  id : Nat
  cached : NodeResult
  input_nodes : List (Option Nat)
  output_nodes : List (Nat × Nat)
  proc : List (Option Nat) → Except Nat Nat

/-- Lookup of a node by id in a graph state. -/
def findNode (st : List NodeSt) (id : Nat) : Option NodeSt :=
  st.find? (fun n => n.id = id)

/-- Assignment arr[i] = v in JavaScript: in-range assignment replaces, an
out-of-range assignment extends the array with holes (holes read back as
undefined, i.e. none). -/
def setInput (l : List (Option Nat)) (i : Nat) (v : Option Nat) : List (Option Nat) :=
  if i < l.length then l.set i v
  else (l ++ List.replicate (i + 1 - l.length) none).set i v

/-- Effect of FlowNode.add_output on one node of the state: the node whose id is
src gets (tgt, idx) pushed onto output_nodes, the node whose id is tgt gets
input_nodes[idx] set to src. The source performs the two mutations in sequence,
but they touch disjoint fields, so a simultaneous update is identical. -/
def addOutNode (src tgt idx : Nat) (n : NodeSt) : NodeSt :=
  { n with
    output_nodes := if n.id = src then n.output_nodes ++ [(tgt, idx)]
                    else n.output_nodes,
    input_nodes := if n.id = tgt then setInput n.input_nodes idx (some src)
                   else n.input_nodes }

/-- FlowNode.add_output (schema.ts lines 77-80): push (node, index) onto the
source's output_nodes, then set the target's input_nodes[index] to the source. -/
def add_output (st : List NodeSt) (src tgt idx : Nat) : List NodeSt :=
  st.map (addOutNode src tgt idx)

/-- Effect of FlowNode.remove_output on one node of the state: the node whose id
is src has the matching pair filtered out of output_nodes, the node whose id is
tgt has input_nodes[idx] unconditionally cleared. -/
def removeOutNode (src tgt idx : Nat) (n : NodeSt) : NodeSt :=
  { n with
    output_nodes := if n.id = src
                    then n.output_nodes.filter (fun p => !(p.1 == tgt && p.2 == idx))
                    else n.output_nodes,
    input_nodes := if n.id = tgt then setInput n.input_nodes idx none
                   else n.input_nodes }

/-- FlowNode.remove_output (schema.ts lines 86-91): filter the matching pair out
of the source's output_nodes, then unconditionally clear the target's
input_nodes[index]. -/
def remove_output (st : List NodeSt) (src tgt idx : Nat) : List NodeSt :=
  st.map (removeOutNode src tgt idx)

/-- Bidirectional consistency (spec section 3): for nodes a and b and every
in-range slot k of b, the pair (b.id, k) is an entry of a.output_nodes exactly
when b.input_nodes[k] references a. -/
def BiConsistent (st : List NodeSt) : Prop :=
  ∀ a ∈ st, ∀ b ∈ st, ∀ k < b.input_nodes.length,
    ((b.id, k) ∈ a.output_nodes ↔ b.input_nodes.getD k none = some a.id)

instance (st : List NodeSt) : Decidable (BiConsistent st) := by
  unfold BiConsistent
  exact List.decidableBAll _ st

/-- Trivial process capability used for concrete example states. -/
def procTriv : List (Option Nat) → Except Nat Nat := fun _ => Except.ok 0

/-- Initial cached value of a fresh node (schema.ts constructor). -/
def cachedInit : NodeResult := .error (.inputError 0 .notConnected)

lemma setInput_of_lt (l : List (Option Nat)) (i : Nat) (v : Option Nat)
    (h : i < l.length) : setInput l i v = l.set i v := by
  simp [setInput, h]

lemma addOutNode_id (src tgt idx : Nat) (n : NodeSt) :
    (addOutNode src tgt idx n).id = n.id := by
  simp [addOutNode]

lemma addOutNode_outputs (src tgt idx : Nat) (n : NodeSt) :
    (addOutNode src tgt idx n).output_nodes =
      if n.id = src then n.output_nodes ++ [(tgt, idx)] else n.output_nodes := by
  simp [addOutNode]

lemma addOutNode_inputs (src tgt idx : Nat) (n : NodeSt) :
    (addOutNode src tgt idx n).input_nodes =
      if n.id = tgt then setInput n.input_nodes idx (some src) else n.input_nodes := by
  simp [addOutNode]

lemma removeOutNode_id (src tgt idx : Nat) (n : NodeSt) :
    (removeOutNode src tgt idx n).id = n.id := by
  simp [removeOutNode]

lemma removeOutNode_outputs (src tgt idx : Nat) (n : NodeSt) :
    (removeOutNode src tgt idx n).output_nodes =
      if n.id = src
        then n.output_nodes.filter (fun p => !(p.1 == tgt && p.2 == idx))
        else n.output_nodes := by
  simp [removeOutNode]

lemma removeOutNode_inputs (src tgt idx : Nat) (n : NodeSt) :
    (removeOutNode src tgt idx n).input_nodes =
      if n.id = tgt then setInput n.input_nodes idx none else n.input_nodes := by
  simp [removeOutNode]

lemma findNode_mem {st : List NodeSt} {id : Nat} {n : NodeSt}
    (h : findNode st id = some n) : n ∈ st ∧ n.id = id := by
  unfold findNode at h
  refine ⟨List.mem_of_find?_eq_some h, ?_⟩
  have := List.find?_some h
  simpa using this

lemma nodup_id_inj {st : List NodeSt} (hnd : (st.map NodeSt.id).Nodup)
    {x y : NodeSt} (hx : x ∈ st) (hy : y ∈ st) (h : x.id = y.id) : x = y :=
  List.inj_on_of_nodup_map hnd hx hy h

lemma getD_set_self (l : List (Option Nat)) (i : Nat) (v : Option Nat)
    (h : i < l.length) : (l.set i v).getD i none = v := by
  simp [List.getD_eq_getElem?_getD, List.getElem?_set_eq_of_lt, h]

lemma getD_set_ne (l : List (Option Nat)) {i j : Nat} (v : Option Nat)
    (h : j ≠ i) : (l.set i v).getD j none = l.getD j none := by
  simp [List.getD_eq_getElem?_getD, List.getElem?_set_ne (Ne.symm h)]

/-- Concrete state for the connect counterexample: node 0 feeds node 2 at input
slot 0 and node 1 is isolated; the state is bidirectionally consistent. -/
def stC6 : List NodeSt :=
  [ { id := 0, cached := cachedInit, input_nodes := [], output_nodes := [(2, 0)],
      proc := procTriv },
    { id := 1, cached := cachedInit, input_nodes := [], output_nodes := [],
      proc := procTriv },
    { id := 2, cached := cachedInit, input_nodes := [some 0], output_nodes := [],
      proc := procTriv } ]

/-- C6 counterexample: connecting node 1 onto the already-occupied input slot 0
of node 2 breaks bidirectional consistency, because node 0 keeps its stale
(2, 0) output entry while node 2's slot now references node 1. So connect does
not preserve the invariant on every consistent state. -/
theorem C6_counterexample :
    BiConsistent stC6 ∧ ¬ BiConsistent (add_output stC6 1 2 0) := by decide

/-- C6 (amended): bidirectional consistency is preserved by connect when the
target's input slot is currently unconnected, and by disconnect when the
target's input slot is unconnected or currently references the disconnecting
source (for an in-range slot, in a graph with distinct node ids). -/
theorem C6_amended (st : List NodeSt) (src tgt idx : Nat) (b : NodeSt)
    (hnd : (st.map NodeSt.id).Nodup) (hbi : BiConsistent st)
    (hb : findNode st tgt = some b) (hrange : idx < b.input_nodes.length) :
    ((b.input_nodes.getD idx none = none) → BiConsistent (add_output st src tgt idx)) ∧
    ((b.input_nodes.getD idx none = none ∨ b.input_nodes.getD idx none = some src) →
      BiConsistent (remove_output st src tgt idx)) := by
  obtain ⟨hbmem, hbid⟩ := findNode_mem hb
  have huniq : ∀ x ∈ st, x.id = tgt → x = b := fun x hx hxid =>
    nodup_id_inj hnd hx hbmem (by rw [hxid, hbid])
  constructor
  · -- connect onto a free slot
    intro hfree
    have hnomem : ∀ a ∈ st, (tgt, idx) ∉ a.output_nodes := by
      intro a ha hmem
      have h2 := (hbi a ha b hbmem idx hrange).mp (by rw [hbid]; exact hmem)
      rw [hfree] at h2
      exact Option.noConfusion h2
    intro a' ha' b' hb' k hk
    rcases List.mem_map.mp ha' with ⟨a, ha, rfl⟩
    rcases List.mem_map.mp hb' with ⟨b0, hb0, rfl⟩
    simp only [addOutNode_id, addOutNode_outputs, addOutNode_inputs] at hk ⊢
    by_cases hbt : b0.id = tgt
    · have hb0b : b0 = b := huniq b0 hb0 hbt
      subst hb0b
      rw [if_pos hbt, setInput_of_lt _ _ _ hrange] at hk ⊢
      rw [List.length_set] at hk
      by_cases hkidx : k = idx
      · subst hkidx
        rw [getD_set_self _ _ _ hrange, hbt]
        by_cases has : a.id = src
        · simp [if_pos has, has]
        · rw [if_neg has]
          constructor
          · intro hmem
            exact absurd hmem (hnomem a ha)
          · intro hsome
            exact absurd (Option.some.inj hsome).symm has
      · rw [getD_set_ne _ _ hkidx]
        by_cases has : a.id = src
        · rw [if_pos has]
          rw [List.mem_append]
          constructor
          · intro hmem
            rcases hmem with hmem | hmem
            · exact (hbi a ha b0 hb0 k hk).mp hmem
            · simp only [List.mem_singleton, Prod.mk.injEq] at hmem
              exact absurd hmem.2 hkidx
          · intro hsome
            exact Or.inl ((hbi a ha b0 hb0 k hk).mpr hsome)
        · rw [if_neg has]
          exact hbi a ha b0 hb0 k hk
    · rw [if_neg hbt] at hk ⊢
      by_cases has : a.id = src
      · rw [if_pos has, List.mem_append]
        constructor
        · intro hmem
          rcases hmem with hmem | hmem
          · exact (hbi a ha b0 hb0 k hk).mp hmem
          · simp only [List.mem_singleton, Prod.mk.injEq] at hmem
            exact absurd hmem.1 hbt
        · intro hsome
          exact Or.inl ((hbi a ha b0 hb0 k hk).mpr hsome)
      · rw [if_neg has]
        exact hbi a ha b0 hb0 k hk
  · -- disconnect of a free slot or of the actual source
    intro hrel
    have hmemchar : ∀ a ∈ st, ((tgt, idx) ∈ a.output_nodes ↔
        b.input_nodes.getD idx none = some a.id) := by
      intro a ha
      have := hbi a ha b hbmem idx hrange
      rw [hbid] at this
      exact this
    intro a' ha' b' hb' k hk
    rcases List.mem_map.mp ha' with ⟨a, ha, rfl⟩
    rcases List.mem_map.mp hb' with ⟨b0, hb0, rfl⟩
    simp only [removeOutNode_id, removeOutNode_outputs, removeOutNode_inputs] at hk ⊢
    have hfiltmem : ∀ (x k' : Nat),
        ((x, k') ∈ a.output_nodes.filter (fun p => !(p.1 == tgt && p.2 == idx)) ↔
          ((x, k') ∈ a.output_nodes ∧ ¬(x = tgt ∧ k' = idx))) := by
      intro x k'
      simp [List.mem_filter, Decidable.not_and_iff_or_not]
      tauto
    by_cases hbt : b0.id = tgt
    · have hb0b : b0 = b := huniq b0 hb0 hbt
      subst hb0b
      rw [if_pos hbt, setInput_of_lt _ _ _ hrange] at hk ⊢
      rw [List.length_set] at hk
      by_cases hkidx : k = idx
      · subst hkidx
        rw [getD_set_self _ _ _ hrange, hbt]
        constructor
        · intro hmem
          by_cases has : a.id = src
          · rw [if_pos has] at hmem
            rw [hfiltmem] at hmem
            exact absurd ⟨rfl, rfl⟩ hmem.2
          · rw [if_neg has] at hmem
            have h2 := (hmemchar a ha).mp hmem
            rcases hrel with hrel | hrel
            · rw [hrel] at h2
              exact Option.noConfusion h2
            · rw [hrel] at h2
              exact absurd (Option.some.inj h2).symm has
        · intro hsome
          exact Option.noConfusion hsome
      · rw [getD_set_ne _ _ hkidx]
        have base := hbi a ha b0 hb0 k hk
        rw [hbt]
        rw [hbt] at base
        by_cases has : a.id = src
        · rw [if_pos has, hfiltmem]
          constructor
          · intro hmem
            exact base.mp hmem.1
          · intro hsome
            exact ⟨base.mpr hsome, fun hand => hkidx hand.2⟩
        · rw [if_neg has]
          exact base
    · rw [if_neg hbt] at hk ⊢
      have base := hbi a ha b0 hb0 k hk
      by_cases has : a.id = src
      · rw [if_pos has, hfiltmem]
        constructor
        · intro hmem
          exact base.mp hmem.1
        · intro hsome
          exact ⟨base.mpr hsome, fun hand => hbt hand.1⟩
      · rw [if_neg has]
        exact base

/-- Concrete state for the disconnect counterexample: node 1 feeds node 2 at
input slot 0; node 0 has no output entry for (2, 0). -/
def stC8 : List NodeSt :=
  [ { id := 0, cached := cachedInit, input_nodes := [], output_nodes := [],
      proc := procTriv },
    { id := 1, cached := cachedInit, input_nodes := [], output_nodes := [(2, 0)],
      proc := procTriv },
    { id := 2, cached := cachedInit, input_nodes := [some 1], output_nodes := [],
      proc := procTriv } ]

/-- C8 counterexample: node 0 has no (2, 0) entry in its output_nodes, yet
disconnecting (0, 2, 0) still clears node 2's input slot 0 (which referenced
node 1), so the call is not a no-op when the pair is absent. -/
theorem C8_counterexample :
    (∀ n ∈ stC8, n.id = 0 → (2, 0) ∉ n.output_nodes) ∧
    stC8.map (fun n => n.input_nodes) = [[], [], [some 1]] ∧
    (remove_output stC8 0 2 0).map (fun n => n.input_nodes) = [[], [], [none]] := by
  decide

/-- C8 (amended): when the pair (target, index) is not present in the source's
output_nodes, remove_output leaves every output list unchanged but still
unconditionally clears the target's input slot at that index; it is a complete
no-op only when that slot is already unconnected (and the index in range). -/
theorem C8_amended (st : List NodeSt) (src tgt idx : Nat)
    (habsent : ∀ n ∈ st, n.id = src → ∀ p ∈ n.output_nodes, ¬(p.1 = tgt ∧ p.2 = idx)) :
    remove_output st src tgt idx =
      st.map (fun n => if n.id = tgt
        then { n with input_nodes := setInput n.input_nodes idx none } else n) ∧
    ((∀ n ∈ st, n.id = tgt → idx < n.input_nodes.length ∧
        n.input_nodes.getD idx none = none) →
      remove_output st src tgt idx = st) := by
  have hfilt : ∀ n ∈ st, n.id = src →
      n.output_nodes.filter (fun p => !(p.1 == tgt && p.2 == idx)) = n.output_nodes := by
    intro n hn hid
    apply List.filter_eq_self.mpr
    intro p hp
    have := habsent n hn hid p hp
    simp only [Bool.not_eq_eq_eq_not, Bool.not_true, Bool.and_eq_false_imp]
    intro h1
    rw [beq_iff_eq] at h1
    rw [beq_eq_false_iff_ne]
    intro h2
    exact this ⟨h1, h2⟩
  have hmain : remove_output st src tgt idx =
      st.map (fun n => if n.id = tgt
        then { n with input_nodes := setInput n.input_nodes idx none } else n) := by
    unfold remove_output
    apply List.map_congr_left
    intro n hn
    unfold removeOutNode
    by_cases h1 : n.id = src
    · rw [if_pos h1, hfilt n hn h1]
      by_cases h2 : n.id = tgt
      · rw [if_pos h2, if_pos h2]
      · rw [if_neg h2, if_neg h2]
    · rw [if_neg h1]
      by_cases h2 : n.id = tgt
      · rw [if_pos h2, if_pos h2]
      · rw [if_neg h2, if_neg h2]
  refine ⟨hmain, ?_⟩
  intro hclear
  rw [hmain]
  have : ∀ n ∈ st, (if n.id = tgt
      then { n with input_nodes := setInput n.input_nodes idx none } else n) = n := by
    intro n hn
    by_cases h2 : n.id = tgt
    · rw [if_pos h2]
      obtain ⟨hlt, hnone⟩ := hclear n hn h2
      have hset : setInput n.input_nodes idx none = n.input_nodes := by
        rw [setInput_of_lt _ _ _ hlt]
        apply List.ext_getElem
        · simp
        · intro i h1 h2'
          rw [List.getElem_set]
          split
          · rename_i hieq
            subst hieq
            have := hnone
            rw [List.getD_eq_getElem?_getD] at this
            rw [List.getElem?_eq_getElem hlt] at this
            simpa using this.symm
          · rfl
      rw [hset]
    · rw [if_neg h2]
  calc st.map _ = st.map id := List.map_congr_left this
    _ = st := List.map_id st

/-! Graph methods (graphMethods.ts). A JavaScript object keyed by node ids is
modelled as an association list iterated in insertion order; assigning a key
overwrites it in place when present and appends otherwise. -/

/-- Adjacency representation of a schema: id mapped to the list of downstream
ids. -/
abbrev Graph := List (Nat × List Nat)

/-- Keys of the object, in iteration order. -/
def keysG (g : Graph) : List Nat := g.map Prod.fst

/-- Property read obj[k] on a JavaScript object. -/
def lookupG (g : Graph) (k : Nat) : Option (List Nat) :=
  (g.find? (fun p => p.1 = k)).map Prod.snd

/-- JavaScript object assignment obj[k] = v. -/
def setKeyG (g : Graph) (k : Nat) (v : List Nat) : Graph :=
  if g.any (fun p => p.1 = k) then g.map (fun p => if p.1 = k then (k, v) else p)
  else g ++ [(k, v)]

/-- graphMethods.toGraph: for every node, graph[node.id] is the list of the ids
of the nodes its output feeds (output_nodes first components). -/
def toGraph (nodes : List NodeSt) : Graph :=
  nodes.foldl (fun g n => setKeyG g n.id (n.output_nodes.map Prod.fst)) []

/-- JavaScript reversed[k].push(v): push onto the array at key k; reading a
missing key gives undefined, and undefined.push is a TypeError (none). -/
def pushKeyG (g : Graph) (k : Nat) (v : Nat) : Option Graph :=
  if g.any (fun p => p.1 = k)
  then some (g.map (fun p => if p.1 = k then (p.1, p.2 ++ [v]) else p))
  else none

/-- graphMethods.reverse: initialise reversed[id] = [] for every key of the
graph, then for every edge id -> cId push id onto reversed[cId]; an edge whose
target is not a key is a TypeError. -/
def reverseG (g : Graph) : Option Graph :=
  g.foldlM (fun r p => p.2.foldlM (fun r2 c => pushKeyG r2 c p.1) r)
    (g.foldl (fun r p => setKeyG r p.1 []) [])

/-- graphMethods.graphRoots: the keys of the reversed graph whose reversed
adjacency list is empty (the source wraps the filtered key array in a Set;
the model keeps the list, whose membership is the set). -/
def graphRoots (g : Graph) : Option (List Nat) :=
  (reverseG g).map (fun r => (r.filter (fun p => p.2.isEmpty)).map Prod.fst)

/-- schemaMethods.rootsIn: graphRoots of the adjacency view of the schema. -/
def rootsIn (nodes : List NodeSt) : Option (List Nat) :=
  graphRoots (toGraph nodes)

/-- Multiplicity-preserving list of in-edge sources contributed to key k by the
edge lists of g, in iteration order. -/
def inContrib (gs : Graph) (k : Nat) : List Nat :=
  gs.flatMap (fun q => (q.2.filter (fun c => c = k)).map (fun _ => q.1))

lemma foldl_setKeyG {α : Type} (f : α → Nat) (v : α → List Nat) :
    ∀ (l : List α) (acc : Graph), (l.map f).Nodup →
      (∀ x ∈ l, ∀ p ∈ acc, p.1 ≠ f x) →
      l.foldl (fun g x => setKeyG g (f x) (v x)) acc =
        acc ++ l.map (fun x => (f x, v x)) := by
  intro l
  induction l with
  | nil => intro acc _ _; simp
  | cons x xs ih =>
    intro acc hnd hfresh
    have hnotin : ¬ acc.any (fun p => p.1 = f x) := by
      rw [List.any_eq_true]
      rintro ⟨p, hp, hpx⟩
      exact hfresh x (List.mem_cons_self x xs) p hp (by simpa using hpx)
    simp only [List.foldl_cons]
    rw [show setKeyG acc (f x) (v x) = acc ++ [(f x, v x)] from if_neg hnotin]
    rw [List.map_cons] at hnd
    have hnd' := hnd.of_cons
    have hxnot := (List.nodup_cons.mp hnd).1
    rw [ih (acc ++ [(f x, v x)]) hnd' ?_]
    · simp
    · intro y hy p hp
      rcases List.mem_append.mp hp with hp | hp
      · exact hfresh y (List.mem_cons_of_mem x hy) p hp
      · simp only [List.mem_singleton] at hp
        subst hp
        intro hcontra
        have hfy : f x = f y := hcontra
        exact hxnot (by rw [hfy]; exact List.mem_map_of_mem f hy)

lemma toGraph_eq_of_nodup (nodes : List NodeSt)
    (hnd : (nodes.map NodeSt.id).Nodup) :
    toGraph nodes = nodes.map (fun n => (n.id, n.output_nodes.map Prod.fst)) := by
  unfold toGraph
  rw [foldl_setKeyG NodeSt.id (fun n => n.output_nodes.map Prod.fst) nodes [] hnd
    (by intro x _ p hp; simp at hp)]
  simp

lemma pushKeyG_char (r : Graph) (k v : Nat) (hk : k ∈ keysG r) :
    pushKeyG r k v =
      some (r.map (fun p => if p.1 = k then (p.1, p.2 ++ [v]) else p)) := by
  unfold pushKeyG
  rw [if_pos]
  rw [List.any_eq_true]
  rcases List.mem_map.mp hk with ⟨p, hp, hpk⟩
  exact ⟨p, hp, by simpa using hpk⟩

lemma pushAll_char (src : Nat) :
    ∀ (cs : List Nat) (r : Graph), (∀ c ∈ cs, c ∈ keysG r) →
      cs.foldlM (fun r2 c => pushKeyG r2 c src) r =
        some (r.map (fun p => (p.1, p.2 ++ (cs.filter (fun c => c = p.1)).map
          (fun _ => src)))) := by
  intro cs
  induction cs with
  | nil =>
    intro r _
    simp
  | cons c cs ih =>
    intro r hcl
    have hck : c ∈ keysG r := hcl c (List.mem_cons_self c cs)
    rw [List.foldlM_cons, pushKeyG_char r c src hck]
    simp only [Option.bind_eq_bind, Option.some_bind]
    rw [ih _ ?_]
    · congr 1
      rw [List.map_map]
      apply List.map_congr_left
      intro p _
      dsimp only [Function.comp]
      by_cases hpc : p.1 = c
      · have hcp : c = p.1 := hpc.symm
        rw [if_pos hpc]
        dsimp only
        rw [List.filter_cons]
        simp [hcp, List.append_assoc]
      · have hcp : ¬ c = p.1 := fun h => hpc h.symm
        rw [if_neg hpc, List.filter_cons]
        simp [hcp]
    · intro c2 hc2
      have hmem := hcl c2 (List.mem_cons_of_mem c hc2)
      unfold keysG at hmem ⊢
      rw [List.map_map]
      rcases List.mem_map.mp hmem with ⟨p, hp, rfl⟩
      refine List.mem_map.mpr ⟨p, hp, ?_⟩
      dsimp only [Function.comp]
      by_cases hpc : p.1 = c
      · rw [if_pos hpc]
      · rw [if_neg hpc]

lemma reverseG_fold_char :
    ∀ (gs : List (Nat × List Nat)) (r : Graph),
      (∀ p ∈ gs, ∀ c ∈ p.2, c ∈ keysG r) →
      gs.foldlM (fun r p => p.2.foldlM (fun r2 c => pushKeyG r2 c p.1) r) r =
        some (r.map (fun p => (p.1, p.2 ++ inContrib gs p.1))) := by
  intro gs
  induction gs with
  | nil =>
    intro r _
    simp [inContrib]
  | cons q gs ih =>
    intro r hcl
    rw [List.foldlM_cons]
    rw [pushAll_char q.1 q.2 r (hcl q (List.mem_cons_self q gs))]
    simp only [Option.bind_eq_bind, Option.some_bind]
    rw [ih _ ?_]
    · congr 1
      rw [List.map_map]
      apply List.map_congr_left
      intro p _
      dsimp only [Function.comp]
      unfold inContrib
      rw [List.flatMap_cons, List.append_assoc]
    · intro p hp c hc
      have := hcl p (List.mem_cons_of_mem q hp) c hc
      unfold keysG at this ⊢
      simpa using this

lemma reverseG_char (g : Graph) (hcl : ∀ p ∈ g, ∀ c ∈ p.2, c ∈ keysG g)
    (hnd : (keysG g).Nodup) :
    reverseG g = some (g.map (fun p => (p.1, inContrib g p.1))) := by
  unfold reverseG
  have hinit : g.foldl (fun r p => setKeyG r p.1 []) [] =
      g.map (fun p => (p.1, ([] : List Nat))) := by
    rw [foldl_setKeyG Prod.fst (fun _ => []) g [] hnd
      (by intro x _ p hp; simp at hp)]
    simp
  rw [hinit]
  rw [reverseG_fold_char g _ ?_]
  · congr 1
    rw [List.map_map]
    apply List.map_congr_left
    intro p _
    simp [Function.comp]
  · intro p hp c hc
    have := hcl p hp c hc
    unfold keysG at this ⊢
    simpa using this

lemma inContrib_eq_nil_iff (g : Graph) (k : Nat) :
    inContrib g k = [] ↔ ∀ q ∈ g, k ∉ q.2 := by
  unfold inContrib
  rw [List.flatMap_eq_nil_iff]
  constructor
  · intro h q hq hk
    have := h q hq
    rw [List.map_eq_nil_iff] at this
    rw [List.filter_eq_nil_iff] at this
    exact this k hk (by simp)
  · intro h q hq
    rw [List.map_eq_nil_iff, List.filter_eq_nil_iff]
    intro c hc hck
    rw [show c = k from by simpa using hck] at hc
    exact h q hq hc

/-- Concrete two-node chain: node 0 feeds node 1. Node 1 is the node with empty
output_nodes, yet rootsIn returns node 0. -/
def stC3 : List NodeSt :=
  [ { id := 0, cached := cachedInit, input_nodes := [], output_nodes := [(1, 0)],
      proc := procTriv },
    { id := 1, cached := cachedInit, input_nodes := [some 0], output_nodes := [],
      proc := procTriv } ]

/-- C3 counterexample: on the chain 0 -> 1, rootsIn returns node 0, whose
output_nodes is nonempty, and not node 1, the unique node with empty
output_nodes. So rootsIn does not return the nodes with zero downstream
edges. -/
theorem C3_counterexample :
    rootsIn stC3 = some [0] ∧
    (stC3.filter (fun n => n.output_nodes.isEmpty)).map NodeSt.id = [1] := by
  decide

/-- C3 (amended): for a schema with distinct node ids whose output references
stay inside the schema, rootsIn returns exactly the ids with zero incoming
edges, i.e. the ids that appear in no node's output_nodes (the nodes none of
whose inputs are fed), not the ids with empty output_nodes. -/
theorem C3_amended (nodes : List NodeSt)
    (hnd : (nodes.map NodeSt.id).Nodup)
    (hcl : ∀ n ∈ nodes, ∀ p ∈ n.output_nodes, p.1 ∈ nodes.map NodeSt.id) :
    ∃ r, rootsIn nodes = some r ∧
      ∀ k, k ∈ r ↔ (k ∈ nodes.map NodeSt.id ∧
        ∀ n ∈ nodes, k ∉ n.output_nodes.map Prod.fst) := by
  have htg := toGraph_eq_of_nodup nodes hnd
  have hkeys : keysG (toGraph nodes) = nodes.map NodeSt.id := by
    rw [htg]
    unfold keysG
    rw [List.map_map]
    rfl
  have hcl' : ∀ p ∈ toGraph nodes, ∀ c ∈ p.2, c ∈ keysG (toGraph nodes) := by
    rw [hkeys, htg]
    intro p hp c hc
    rcases List.mem_map.mp hp with ⟨n, hn, rfl⟩
    simp only at hc
    rcases List.mem_map.mp hc with ⟨q, hq, rfl⟩
    exact hcl n hn q hq
  have hnd' : (keysG (toGraph nodes)).Nodup := by
    rw [hkeys]; exact hnd
  unfold rootsIn graphRoots
  rw [reverseG_char (toGraph nodes) hcl' hnd']
  refine ⟨_, rfl, ?_⟩
  intro k
  constructor
  · intro hk
    rcases List.mem_map.mp hk with ⟨p, hp, rfl⟩
    rcases List.mem_filter.mp hp with ⟨hpmem, hpempty⟩
    rcases List.mem_map.mp hpmem with ⟨q, hq, rfl⟩
    simp only [List.isEmpty_iff] at hpempty
    have hnoedge := (inContrib_eq_nil_iff (toGraph nodes) q.1).mp hpempty
    constructor
    · rw [← hkeys]
      show q.1 ∈ keysG (toGraph nodes)
      unfold keysG
      exact List.mem_map_of_mem Prod.fst hq
    · intro n hn hkmem
      have hqg : (n.id, n.output_nodes.map Prod.fst) ∈ toGraph nodes := by
        rw [htg]
        exact List.mem_map_of_mem _ hn
      exact hnoedge _ hqg hkmem
  · rintro ⟨hkmem, hnoedge⟩
    rw [← hkeys] at hkmem
    rcases List.mem_map.mp hkmem with ⟨q, hq, rfl⟩
    have hempty : inContrib (toGraph nodes) q.1 = [] := by
      rw [inContrib_eq_nil_iff]
      intro p hp hkp
      rw [htg] at hp
      rcases List.mem_map.mp hp with ⟨n, hn, rfl⟩
      exact hnoedge n hn hkp
    refine List.mem_map.mpr ⟨(q.1, inContrib (toGraph nodes) q.1), ?_, rfl⟩
    rw [List.mem_filter]
    refine ⟨List.mem_map.mpr ⟨q, hq, rfl⟩, by simp [hempty]⟩

/-- Two-node state used as a witness instance for the connect and disconnect
invariant preservation: node 1 has one unconnected input slot. -/
def stC6w : List NodeSt :=
  [ { id := 0, cached := cachedInit, input_nodes := [], output_nodes := [],
      proc := procTriv },
    { id := 1, cached := cachedInit, input_nodes := [none], output_nodes := [],
      proc := procTriv } ]

/-- Witness for the amended connect and disconnect invariant: on a concrete
consistent state with a free slot, both operations preserve consistency. -/
theorem C6_amended_witness :
    BiConsistent (add_output stC6w 0 1 0) ∧ BiConsistent (remove_output stC6w 0 1 0) :=
  ⟨(C6_amended stC6w 0 1 0
      { id := 1, cached := cachedInit, input_nodes := [none], output_nodes := [],
        proc := procTriv }
      (by decide) (by decide) rfl (by decide)).1 (by decide),
   (C6_amended stC6w 0 1 0
      { id := 1, cached := cachedInit, input_nodes := [none], output_nodes := [],
        proc := procTriv }
      (by decide) (by decide) rfl (by decide)).2 (Or.inl (by decide))⟩

/-- Witness for the amended disconnect frame property, instantiated at the
concrete state stC8 where the pair (2, 0) is absent from node 0's outputs. -/
theorem C8_amended_witness :
    remove_output stC8 0 2 0 =
      stC8.map (fun n => if n.id = 2
        then { n with input_nodes := setInput n.input_nodes 0 none } else n) ∧
    ((∀ n ∈ stC8, n.id = 2 → 0 < n.input_nodes.length ∧
        n.input_nodes.getD 0 none = none) →
      remove_output stC8 0 2 0 = stC8) :=
  C8_amended stC8 0 2 0 (by decide)

/-- Witness for the amended root characterisation, instantiated at the concrete
chain stC3. -/
theorem C3_amended_witness :
    ∃ r, rootsIn stC3 = some r ∧
      ∀ k, k ∈ r ↔ (k ∈ stC3.map NodeSt.id ∧
        ∀ n ∈ stC3, k ∉ n.output_nodes.map Prod.fst) :=
  C3_amended stC3 (by decide) (by decide)

/-- schemaMethods.exposedPorts: build a node map keyed by id, look up every
requested id (a missing id is a TypeError when its input_nodes is read), and
for each node emit one (node id, i) pair per entry of the filtered list of
connected inputs, i being the position in the filtered list. The source keys
the map by id with last-entry-wins; under the unique-id invariant this agrees
with first-match lookup. -/
def exposedPorts (ids : List Nat) (nodes : List NodeSt) : Option (List (Nat × Nat)) :=
  (ids.mapM (fun id => findNode nodes id)).map (fun ns =>
    ns.flatMap (fun n =>
      (n.input_nodes.filter Option.isSome).mapIdx (fun i _ => (n.id, i))))

lemma mapIdx_pair_gen (c : Nat) :
    ∀ (l : List (Option Nat)) (g : Nat → Nat),
      l.mapIdx (fun i _ => (c, g i)) = (List.range l.length).map (fun i => (c, g i)) := by
  intro l
  induction l with
  | nil => intro g; simp
  | cons x xs ih =>
    intro g
    rw [List.mapIdx_cons, List.length_cons, List.range_succ_eq_map]
    rw [List.map_cons, List.map_map]
    congr 1
    exact ih (fun i => g (i + 1))

lemma mapIdx_const_pair (c : Nat) (l : List (Option Nat)) :
    l.mapIdx (fun i _ => (c, i)) = (List.range l.length).map (fun i => (c, i)) :=
  mapIdx_pair_gen c l (fun i => i)

/-- Concrete state for the exposed-port counterexample: node 5 has input slot 0
unconnected and input slot 1 connected to node 9. -/
def stC9 : List NodeSt :=
  [ { id := 5, cached := cachedInit, input_nodes := [none, some 9],
      output_nodes := [], proc := procTriv },
    { id := 9, cached := cachedInit, input_nodes := [], output_nodes := [(5, 1)],
      proc := procTriv } ]

/-- C9 counterexample: node 5's only connected input is slot 1, but exposedPorts
reports the pair (5, 0): the index is the position in the filtered list of
connected inputs, not the slot's position in input_nodes. -/
theorem C9_counterexample :
    exposedPorts [5] stC9 = some [(5, 0)] ∧
    (∀ n ∈ stC9, n.id = 5 →
      n.input_nodes.getD 0 none = none ∧ n.input_nodes.getD 1 none = some 9) := by
  decide

lemma mapM_findNode_char (nodes : List NodeSt) :
    ∀ (ids : List Nat), (∀ id ∈ ids, (findNode nodes id).isSome = true) →
      ∃ ns, ids.mapM (fun id => findNode nodes id) = some ns ∧
        (∀ n, n ∈ ns ↔ ∃ id ∈ ids, findNode nodes id = some n) := by
  intro ids
  induction ids with
  | nil =>
    intro _
    exact ⟨[], rfl, by simp⟩
  | cons id ids ih =>
    intro h
    have h0 := h id (List.mem_cons_self id ids)
    rcases Option.isSome_iff_exists.mp h0 with ⟨n0, hn0⟩
    rcases ih (fun i hi => h i (List.mem_cons_of_mem id hi)) with ⟨ns, hns, hmem⟩
    refine ⟨n0 :: ns, ?_, ?_⟩
    · rw [List.mapM_cons, hn0, hns]
      rfl
    · intro n
      constructor
      · intro hn
        rcases List.mem_cons.mp hn with rfl | hn
        · exact ⟨id, List.mem_cons_self id ids, hn0⟩
        · rcases (hmem n).mp hn with ⟨i, hi, hfi⟩
          exact ⟨i, List.mem_cons_of_mem id hi, hfi⟩
      · rintro ⟨i, hi, hfi⟩
        rcases List.mem_cons.mp hi with rfl | hi
        · rw [hn0] at hfi
          rw [Option.some.inj hfi]
          exact List.mem_cons_self n ns
        · exact List.mem_cons_of_mem n0 ((hmem n).mpr ⟨i, hi, hfi⟩)

/-- C9 (amended): for every node set whose ids are all present, exposedPorts
returns a list containing (a, j) exactly when a is the id of a requested node
and j is below that node's count of connected input slots: one pair per
connected input, indexed by its ordinal among the connected inputs (in input
order), not by its absolute slot position. -/
theorem C9_amended (ids : List Nat) (nodes : List NodeSt)
    (hfound : ∀ id ∈ ids, (findNode nodes id).isSome = true) :
    ∃ l, exposedPorts ids nodes = some l ∧
      ∀ a j, ((a, j) ∈ l ↔ ∃ id ∈ ids, ∃ n, findNode nodes id = some n ∧ a = n.id ∧
        j < (n.input_nodes.filter Option.isSome).length) := by
  rcases mapM_findNode_char nodes ids hfound with ⟨ns, hns, hmem⟩
  unfold exposedPorts
  rw [hns]
  refine ⟨_, rfl, ?_⟩
  intro a j
  rw [List.mem_flatMap]
  constructor
  · rintro ⟨n, hn, hpair⟩
    rw [mapIdx_const_pair] at hpair
    rcases List.mem_map.mp hpair with ⟨i, hi, hieq⟩
    obtain ⟨h1, h2⟩ := Prod.mk.injEq .. |>.mp hieq
    subst h1
    subst h2
    rcases (hmem n).mp hn with ⟨id, hid, hfid⟩
    exact ⟨id, hid, n, hfid, rfl, List.mem_range.mp hi⟩
  · rintro ⟨id, hid, n, hfid, rfl, hj⟩
    refine ⟨n, (hmem n).mpr ⟨id, hid, hfid⟩, ?_⟩
    rw [mapIdx_const_pair]
    exact List.mem_map.mpr ⟨j, List.mem_range.mpr hj, rfl⟩

/-- Witness for the amended exposed-ports characterisation at the concrete
state stC9. -/
theorem C9_amended_witness :
    ∃ l, exposedPorts [5] stC9 = some l ∧
      ∀ a j, ((a, j) ∈ l ↔ ∃ id ∈ [5], ∃ n, findNode stC9 id = some n ∧ a = n.id ∧
        j < (n.input_nodes.filter Option.isSome).length) :=
  C9_amended [5] stC9 (by decide)

/-! Breadth-first search (graphMethods.graphChildren) and the cycle test
(schemaMethods.cycleWith). -/

/-- One edge of the adjacency graph: b is listed in the adjacency of a. -/
def stepG (g : Graph) (a b : Nat) : Prop :=
  ∃ adj, lookupG g a = some adj ∧ b ∈ adj

/-- graphMethods.graphChildren's while loop: pop the head of the queue, look up
its adjacency (a missing key contributes nothing), filter the not-yet-seen
children once against the current seen set, then push them all onto the queue
and add them to the seen set. The seeds themselves are not pre-seeded. The fuel
models the unbounded while loop; graphChildren supplies a proved-sufficient
amount. -/
def bfs (g : Graph) : Nat → List Nat → Finset Nat → Option (Finset Nat)
  | _, [], seen => some seen
  | 0, _ :: _, _ => none
  | fuel + 1, id :: rest, seen =>
    match lookupG g id with
    | none => bfs g fuel rest seen
    | some adj =>
      let fresh := adj.filter (fun c => decide (c ∉ seen))
      bfs g fuel (rest ++ fresh) (seen ∪ fresh.toFinset)

/-- Largest adjacency-list length of the graph, bounding queue growth per
iteration. -/
def maxAdj (g : Graph) : Nat := (g.map (fun p => p.2.length)).foldr max 0

/-- graphMethods.graphChildren: breadth-first search for all strict descendants
of the seed set. -/
def graphChildren (ids : List Nat) (g : Graph) : Option (Finset Nat) :=
  bfs g ((g.flatMap (fun p => p.2)).toFinset.card * (maxAdj g + 1) + ids.length + 1)
    ids ∅

/-- schemaMethods.childrenOf: descendants within a schema. -/
def childrenOf (ids : List Nat) (nodes : List NodeSt) : Option (Finset Nat) :=
  graphChildren ids (toGraph nodes)

/-- schemaMethods.cycleWith: true when every seed id is among the descendants of
the seed set. -/
def cycleWith (ids : List Nat) (nodes : List NodeSt) : Option Bool :=
  (childrenOf ids nodes).map (fun ch => ids.all (fun id => decide (id ∈ ch)))

lemma le_maxAdj (g : Graph) : ∀ p ∈ g, p.2.length ≤ maxAdj g := by
  unfold maxAdj
  induction g with
  | nil => intro p hp; simp at hp
  | cons q g ih =>
    intro p hp
    rw [List.map_cons, List.foldr_cons]
    rcases List.mem_cons.mp hp with rfl | hp
    · exact le_max_left _ _
    · exact le_trans (ih p hp) (le_max_right _ _)

lemma lookupG_mem {g : Graph} {id : Nat} {adj : List Nat}
    (h : lookupG g id = some adj) : (id, adj) ∈ g := by
  unfold lookupG at h
  rcases Option.map_eq_some'.mp h with ⟨p, hp, rfl⟩
  have hmem := List.mem_of_find?_eq_some hp
  have hfst := List.find?_some hp
  simp only [decide_eq_true_eq] at hfst
  rw [← hfst]
  exact hmem

lemma bfs_total (g : Graph) (U : Finset Nat) (A : Nat)
    (hU : ∀ p ∈ g, ∀ c ∈ p.2, c ∈ U)
    (hA : ∀ p ∈ g, p.2.length ≤ A) :
    ∀ fuel queue seen, (U \ seen).card * (A + 1) + queue.length < fuel →
      (bfs g fuel queue seen).isSome = true := by
  intro fuel
  induction fuel with
  | zero =>
    intro queue seen hμ
    exact absurd hμ (by omega)
  | succ fuel ih =>
    intro queue seen hμ
    match queue with
    | [] => rfl
    | id :: rest =>
      rw [bfs]
      match hlook : lookupG g id with
      | none =>
        apply ih
        simp only [List.length_cons] at hμ
        omega
      | some adj =>
        simp only
        have hpg := lookupG_mem hlook
        match hfresh : adj.filter (fun c => decide (c ∉ seen)) with
        | [] =>
          have : seen ∪ ([] : List Nat).toFinset = seen := by simp
          rw [this]
          apply ih
          simp only [List.length_append, List.length_nil, List.length_cons] at hμ ⊢
          omega
        | f0 :: fs =>
          apply ih
          have hf0 : f0 ∈ adj ∧ f0 ∉ seen := by
            have := List.mem_filter.mp (hfresh ▸ List.mem_cons_self f0 fs)
            simpa using this
          have hf0U : f0 ∈ U := hU (id, adj) hpg f0 hf0.1
          have hsub : U \ (seen ∪ (f0 :: fs).toFinset) ⊂ U \ seen := by
            constructor
            · intro x hx
              rw [Finset.mem_sdiff] at hx ⊢
              exact ⟨hx.1, fun hxs => hx.2 (Finset.mem_union_left _ hxs)⟩
            · intro hcon
              have : f0 ∈ U \ seen := Finset.mem_sdiff.mpr ⟨hf0U, hf0.2⟩
              have := hcon this
              rw [Finset.mem_sdiff] at this
              exact this.2 (Finset.mem_union_right _ (by simp))
          have hcard : (U \ (seen ∪ (f0 :: fs).toFinset)).card + 1 ≤ (U \ seen).card :=
            Finset.card_lt_card hsub
          have hflen : (f0 :: fs).length ≤ A := by
            calc (f0 :: fs).length ≤ adj.length := by
                  rw [← hfresh]; exact List.length_filter_le _ _
            _ ≤ A := hA (id, adj) hpg
          have hkey : ((U \ (seen ∪ (f0 :: fs).toFinset)).card + 1) * (A + 1) ≤
              (U \ seen).card * (A + 1) := Nat.mul_le_mul_right _ hcard
          rw [Nat.succ_mul] at hkey
          simp only [List.length_cons] at hflen
          simp only [List.length_append, List.length_cons] at hμ ⊢
          omega

lemma bfs_char (g : Graph) (roots : List Nat) :
    ∀ fuel queue seen S, bfs g fuel queue seen = some S →
      (∀ x ∈ queue, x ∈ roots ∨ ∃ a ∈ roots, Relation.TransGen (stepG g) a x) →
      (∀ x ∈ seen, ∃ a ∈ roots, Relation.TransGen (stepG g) a x) →
      (∀ x, (x ∈ roots ∨ x ∈ seen) → x ∈ queue ∨ ∀ b, stepG g x b → b ∈ seen) →
      (∀ x ∈ S, ∃ a ∈ roots, Relation.TransGen (stepG g) a x) ∧
      (∀ x, (x ∈ roots ∨ x ∈ S) → ∀ b, stepG g x b → b ∈ S) := by
  intro fuel
  induction fuel with
  | zero =>
    intro queue seen S hrun hq hs hcl
    match queue with
    | [] =>
      cases hrun
      refine ⟨hs, ?_⟩
      intro x hx b hb
      rcases hcl x hx with hx2 | hx2
      · simp at hx2
      · exact hx2 b hb
    | id :: rest => cases hrun
  | succ fuel ih =>
    intro queue seen S hrun hq hs hcl
    match queue with
    | [] =>
      cases hrun
      refine ⟨hs, ?_⟩
      intro x hx b hb
      rcases hcl x hx with hx2 | hx2
      · simp at hx2
      · exact hx2 b hb
    | id :: rest =>
      rw [bfs] at hrun
      match hlook : lookupG g id with
      | none =>
        rw [hlook] at hrun
        apply ih rest seen S hrun
        · intro x hx
          exact hq x (List.mem_cons_of_mem id hx)
        · exact hs
        · intro x hx
          rcases hcl x hx with hx2 | hx2
          · rcases List.mem_cons.mp hx2 with rfl | hx2
            · right
              intro b hb
              rcases hb with ⟨adj, hadj, _⟩
              rw [hlook] at hadj
              cases hadj
            · exact Or.inl hx2
          · exact Or.inr hx2
      | some adj =>
        rw [hlook] at hrun
        simp only at hrun
        set fresh := adj.filter (fun c => decide (c ∉ seen)) with hfreshdef
        have hidreach : ∀ c ∈ adj, c ∈ roots ∨
            ∃ a ∈ roots, Relation.TransGen (stepG g) a c := by
          intro c hc
          rcases hq id (List.mem_cons_self id rest) with hid | ⟨a, ha, hreach⟩
          · exact Or.inr ⟨id, hid, Relation.TransGen.single ⟨adj, hlook, hc⟩⟩
          · exact Or.inr ⟨a, ha, hreach.tail ⟨adj, hlook, hc⟩⟩
        have hidreach2 : ∀ c ∈ adj,
            ∃ a ∈ roots, Relation.TransGen (stepG g) a c := by
          intro c hc
          rcases hq id (List.mem_cons_self id rest) with hid | ⟨a, ha, hreach⟩
          · exact ⟨id, hid, Relation.TransGen.single ⟨adj, hlook, hc⟩⟩
          · exact ⟨a, ha, hreach.tail ⟨adj, hlook, hc⟩⟩
        apply ih (rest ++ fresh) (seen ∪ fresh.toFinset) S hrun
        · intro x hx
          rcases List.mem_append.mp hx with hx | hx
          · exact hq x (List.mem_cons_of_mem id hx)
          · exact Or.inr (hidreach2 x (List.mem_of_mem_filter hx))
        · intro x hx
          rcases Finset.mem_union.mp hx with hx | hx
          · exact hs x hx
          · rw [List.mem_toFinset] at hx
            exact hidreach2 x (List.mem_of_mem_filter hx)
        · intro x hx
          have hxcase : (x ∈ roots ∨ x ∈ seen) ∨ x ∈ fresh := by
            rcases hx with hx | hx
            · exact Or.inl (Or.inl hx)
            · rcases Finset.mem_union.mp hx with hx | hx
              · exact Or.inl (Or.inr hx)
              · exact Or.inr (List.mem_toFinset.mp hx)
          rcases hxcase with hx2 | hx2
          · rcases hcl x hx2 with hx3 | hx3
            · rcases List.mem_cons.mp hx3 with rfl | hx3
              · right
                intro b hb
                rcases hb with ⟨adj2, hadj2, hbadj⟩
                rw [hlook] at hadj2
                cases hadj2
                by_cases hbseen : b ∈ seen
                · exact Finset.mem_union_left _ hbseen
                · refine Finset.mem_union_right _ (List.mem_toFinset.mpr ?_)
                  exact List.mem_filter.mpr ⟨hbadj, by simpa using hbseen⟩
              · exact Or.inl (List.mem_append_left fresh hx3)
            · right
              intro b hb
              exact Finset.mem_union_left _ (hx3 b hb)
          · exact Or.inl (List.mem_append_right rest hx2)

/-- Full characterisation of graphChildren: it terminates and returns exactly
the ids reachable from the seed set by a nonempty path of adjacency edges. -/
lemma graphChildren_char (ids : List Nat) (g : Graph) :
    ∃ S, graphChildren ids g = some S ∧
      ∀ x, (x ∈ S ↔ ∃ a ∈ ids, Relation.TransGen (stepG g) a x) := by
  have htotal := bfs_total g ((g.flatMap (fun p => p.2)).toFinset) (maxAdj g)
    (by
      intro p hp c hc
      rw [List.mem_toFinset]
      exact List.mem_flatMap.mpr ⟨p, hp, hc⟩)
    (le_maxAdj g)
    ((g.flatMap (fun p => p.2)).toFinset.card * (maxAdj g + 1) + ids.length + 1)
    ids ∅
    (by
      have hle : (((g.flatMap (fun p => p.2)).toFinset \ ∅).card) ≤
          (g.flatMap (fun p => p.2)).toFinset.card := by
        apply Finset.card_le_card
        intro x hx
        exact (Finset.mem_sdiff.mp hx).1
      have := Nat.mul_le_mul_right (maxAdj g + 1) hle
      omega)
  rcases Option.isSome_iff_exists.mp htotal with ⟨S, hS⟩
  refine ⟨S, hS, ?_⟩
  have hchar := bfs_char g ids _ ids ∅ S hS
    (fun x hx => Or.inl hx)
    (by intro x hx; simp at hx)
    (by intro x hx
        rcases hx with hx | hx
        · exact Or.inl hx
        · simp at hx)
  intro x
  constructor
  · intro hx
    exact hchar.1 x hx
  · rintro ⟨a, ha, hreach⟩
    induction hreach with
    | single hstep =>
      rename_i b
      exact hchar.2 a (Or.inl ha) b hstep
    | tail hgen hstep ihr =>
      rename_i b c
      exact hchar.2 b (Or.inr ihr) c hstep

/-- Single isolated node used for the cycleWith counterexample. -/
def stC7 : List NodeSt :=
  [ { id := 0, cached := cachedInit, input_nodes := [], output_nodes := [],
      proc := procTriv } ]

/-- C7 counterexample: on the singleton seed set over a single edgeless node,
mutual reachability holds vacuously (there is no other id), yet cycleWith
returns false — so cycleWith is not equivalent to mutual reachability. -/
theorem C7_counterexample :
    cycleWith [0] stC7 = some false ∧
    (∀ a ∈ ([0] : List Nat), ∀ b ∈ ([0] : List Nat), a ≠ b →
      Relation.TransGen (stepG (toGraph stC7)) a b) := by
  constructor
  · decide
  · intro a ha b hb hab
    simp only [List.mem_singleton] at ha hb
    subst ha
    subst hb
    exact absurd rfl hab

/-- C7 (amended): cycleWith(ids) returns true exactly when every seed id is
reachable by a nonempty path from some (not necessarily every other) seed id —
each seed lies in the descendant set of the whole seed set. This is implied by,
but does not imply, mutual reachability of the seeds. -/
theorem C7_amended (ids : List Nat) (nodes : List NodeSt) :
    ∃ b, cycleWith ids nodes = some b ∧
      (b = true ↔ ∀ id ∈ ids, ∃ a ∈ ids,
        Relation.TransGen (stepG (toGraph nodes)) a id) := by
  rcases graphChildren_char ids (toGraph nodes) with ⟨S, hS, hchar⟩
  refine ⟨ids.all (fun id => decide (id ∈ S)), ?_, ?_⟩
  · unfold cycleWith childrenOf
    rw [hS]
    rfl
  · rw [List.all_eq_true]
    constructor
    · intro h id hid
      exact (hchar id).mp (by simpa using h id hid)
    · intro h id hid
      simpa using (hchar id).mpr (h id hid)

/-! FlowNode update protocol (schema.ts lines 98-139). -/

/-- FlowNode.error_at for the slot value at index k: an unconnected slot wraps
NotConnected, a connected slot whose upstream cached value is an error wraps
that error. Input slots hold live object references in the source, so a
dangling id cannot arise there; the model treats that unreachable case like an
unconnected slot. -/
def slotErr (st : List NodeSt) (slot : Option Nat) (k : Nat) : Option ErrVal :=
  match slot with
  | none => some (.inputError k .notConnected)
  | some iid =>
    match findNode st iid with
    | some m =>
      match m.cached with
      | .error e => some (.inputError k e)
      | .data _ => none
    | none => some (.inputError k .notConnected)

/-- Scan of the input slots in ascending index order, returning the first
error. -/
def firstErrAux (st : List NodeSt) : List (Option Nat) → Nat → Option ErrVal
  | [], _ => none
  | s :: rest, k =>
    match slotErr st s k with
    | some e => some e
    | none => firstErrAux st rest (k + 1)

/-- FlowNode.errors_resolved: first error over the input slots, by ascending
index. -/
def errors_resolved (st : List NodeSt) (n : NodeSt) : Option ErrVal :=
  firstErrAux st n.input_nodes 0

/-- Input data gathered by run_process: node?.cached.data per slot, which is
none when the slot is unconnected or the upstream cached value is an error. -/
def readInputs (st : List NodeSt) (n : NodeSt) : List (Option Nat) :=
  n.input_nodes.map (fun s => s.bind (fun iid => (findNode st iid).bind (fun m =>
    match m.cached with
    | .data v => some v
    | .error _ => none)))

/-- The new cached value computed by one update step of a node: the first input
error if any (processing skipped), otherwise the process result, a thrown
cause being caught and wrapped as ProcessError (run_process). -/
def updateCached (st : List NodeSt) (n : NodeSt) : NodeResult :=
  match errors_resolved st n with
  | some e => .error e
  | none =>
    match n.proc (readInputs st n) with
    | .ok v => .data v
    | .error c => .error (.processError c)

/-- Assignment this.cached = r on the node with the given id. -/
def setCached (st : List NodeSt) (id : Nat) (r : NodeResult) : List NodeSt :=
  st.map (fun m => if m.id = id then { m with cached := r } else m)

/-- FlowNode.update as a worklist: process the head node (compute its new
cached value, then recursively update all its downstream nodes with one less
fuel, the fuel bounding the depth of the recursion), then continue with the
rest of the worklist at the same depth. Promise.all over the downstream
updates is sequentialised left to right; every claim proved below is
insensitive to the sibling order. update runs a singleton worklist. -/
def updateList : Nat → List NodeSt → List Nat → Option (List NodeSt)
  | _, st, [] => some st
  | 0, _, _ :: _ => none
  | fuel + 1, st, id :: rest =>
    match findNode st id with
    | none => none
    | some n =>
      match updateList fuel (setCached st id (updateCached st n))
          (n.output_nodes.map Prod.fst) with
      | none => none
      | some st2 => updateList (fuel + 1) st2 rest
termination_by fuel _ l => (fuel, l.length)

/-- FlowNode.update on one node. -/
def update (fuel : Nat) (st : List NodeSt) (id : Nat) : Option (List NodeSt) :=
  updateList fuel st [id]

/-- Relation between a node state before and after an update walk: everything
except the cached field is unchanged. -/
def SameShape (a b : NodeSt) : Prop := b = { a with cached := b.cached }

lemma sameShape_refl (a : NodeSt) : SameShape a a := rfl

lemma sameShape_trans {a b c : NodeSt} (h1 : SameShape a b) (h2 : SameShape b c) :
    SameShape a c := by
  unfold SameShape at *
  rw [h2, h1]

lemma forall₂_shape_refl (st : List NodeSt) : List.Forall₂ SameShape st st :=
  (List.forall₂_same).mpr (fun x _ => sameShape_refl x)

lemma forall₂_shape_trans {a b c : List NodeSt}
    (h1 : List.Forall₂ SameShape a b) (h2 : List.Forall₂ SameShape b c) :
    List.Forall₂ SameShape a c := by
  induction h1 generalizing c with
  | nil =>
    cases h2
    exact List.Forall₂.nil
  | cons hab h1 ih =>
    cases h2 with
    | cons hbc h2 =>
      exact List.Forall₂.cons (sameShape_trans hab hbc) (ih h2)

lemma setCached_shape (st : List NodeSt) (id : Nat) (r : NodeResult) :
    List.Forall₂ SameShape st (setCached st id r) := by
  induction st with
  | nil => exact List.Forall₂.nil
  | cons m st ih =>
    refine List.Forall₂.cons ?_ ih
    by_cases h : m.id = id
    · simp only [setCached, if_pos h]
      rfl
    · simp only [setCached, if_neg h]
      rfl

lemma findNode_shape {st st' : List NodeSt}
    (h : List.Forall₂ SameShape st st') (id : Nat) :
    (findNode st id = none → findNode st' id = none) ∧
    (∀ n, findNode st id = some n → ∃ n', findNode st' id = some n' ∧ SameShape n n') := by
  induction h with
  | nil => exact ⟨fun _ => rfl, fun n hn => by cases hn⟩
  | cons hab h ih =>
    rename_i a b st st'
    have hid : b.id = a.id := by rw [hab]
    constructor
    · intro hn
      unfold findNode at hn ⊢
      rw [List.find?_cons] at hn ⊢
      rw [hid]
      match hcond : (decide (a.id = id)) with
      | true => rw [hcond] at hn; cases hn
      | false =>
        rw [hcond] at hn
        exact ih.1 hn
    · intro n hn
      unfold findNode at hn ⊢
      rw [List.find?_cons] at hn ⊢
      rw [hid]
      match hcond : (decide (a.id = id)) with
      | true =>
        rw [hcond] at hn
        cases hn
        exact ⟨b, rfl, hab⟩
      | false =>
        rw [hcond] at hn
        exact ih.2 n hn

/-- Downstream edge relation of a state: b appears among the output targets of
the node with id a. -/
def stepRel (st : List NodeSt) (a b : Nat) : Prop :=
  ∃ n, findNode st a = some n ∧ b ∈ n.output_nodes.map Prod.fst

lemma stepRel_shape {st st' : List NodeSt}
    (h : List.Forall₂ SameShape st st') : stepRel st' = stepRel st := by
  funext a b
  apply propext
  constructor
  · rintro ⟨n', hn', hb⟩
    match hfind : findNode st a with
    | none =>
      rw [(findNode_shape h a).1 hfind] at hn'
      cases hn'
    | some n =>
      rcases (findNode_shape h a).2 n hfind with ⟨n'', hn'', hshape⟩
      rw [hn''] at hn'
      cases hn'
      refine ⟨n, hfind, ?_⟩
      have : n'.output_nodes = n.output_nodes := by rw [hshape]
      rw [← this]
      exact hb
  · rintro ⟨n, hn, hb⟩
    rcases (findNode_shape h a).2 n hn with ⟨n', hn', hshape⟩
    refine ⟨n', hn', ?_⟩
    have : n'.output_nodes = n.output_nodes := by rw [hshape]
    rw [this]
    exact hb

lemma ids_shape {st st' : List NodeSt}
    (h : List.Forall₂ SameShape st st') : st'.map NodeSt.id = st.map NodeSt.id := by
  induction h with
  | nil => rfl
  | cons hab h ih =>
    rename_i a b st st'
    have hid : b.id = a.id := by rw [hab]
    simp only [List.map_cons, hid, ih]

lemma updateList_shape :
    ∀ fuel (l : List Nat) (st st' : List NodeSt),
      updateList fuel st l = some st' → List.Forall₂ SameShape st st' := by
  intro fuel
  induction fuel with
  | zero =>
    intro l st st' h
    match l with
    | [] =>
      rw [updateList] at h
      cases h
      exact forall₂_shape_refl st
    | x :: xs =>
      rw [updateList] at h
      cases h
  | succ fuel ih =>
    intro l
    induction l with
    | nil =>
      intro st st' h
      rw [updateList] at h
      cases h
      exact forall₂_shape_refl st
    | cons id rest ihl =>
      intro st st' h
      rw [updateList] at h
      match hfind : findNode st id with
      | none =>
        rw [hfind] at h
        cases h
      | some n =>
        rw [hfind] at h
        simp only at h
        match hrec : updateList fuel (setCached st id (updateCached st n))
            (n.output_nodes.map Prod.fst) with
        | none =>
          rw [hrec] at h
          cases h
        | some st2 =>
          rw [hrec] at h
          have h1 := setCached_shape st id (updateCached st n)
          have h2 := ih _ _ _ hrec
          have h3 := ihl st2 st' h
          exact forall₂_shape_trans (forall₂_shape_trans h1 h2) h3

lemma shape_mem_right {st st' : List NodeSt}
    (h : List.Forall₂ SameShape st st') : ∀ b ∈ st', ∃ a ∈ st, SameShape a b := by
  induction h with
  | nil => intro b hb; simp at hb
  | cons hab h ih =>
    rename_i a b st st'
    intro x hx
    rcases List.mem_cons.mp hx with rfl | hx
    · exact ⟨a, List.mem_cons_self a st, hab⟩
    · rcases ih x hx with ⟨a2, ha2, hs⟩
      exact ⟨a2, List.mem_cons_of_mem a ha2, hs⟩

/-- Every output reference of every node stays inside the state. -/
def OutClosed (st : List NodeSt) : Prop :=
  ∀ n ∈ st, ∀ p ∈ n.output_nodes, p.1 ∈ st.map NodeSt.id

instance (st : List NodeSt) : Decidable (OutClosed st) := by
  unfold OutClosed
  exact List.decidableBAll _ st

/-- The downstream reachability relation of the state is acyclic: no node
reaches itself by a nonempty downstream path. -/
def AcyclicSt (st : List NodeSt) : Prop :=
  ∀ a, ¬ Relation.TransGen (stepRel st) a a

/-- Strict downstream descendants of a node id. -/
def descSet (st : List NodeSt) (a : Nat) : Set Nat :=
  {b | Relation.TransGen (stepRel st) a b}

lemma descSet_shape {st st' : List NodeSt}
    (h : List.Forall₂ SameShape st st') : descSet st' = descSet st := by
  unfold descSet
  rw [stepRel_shape h]

lemma descSet_subset_ids {st : List NodeSt} (hoc : OutClosed st) (a : Nat) :
    descSet st a ⊆ {b | b ∈ st.map NodeSt.id} := by
  intro b hb
  have hlast : ∃ x, stepRel st x b := by
    cases hb with
    | single hs => exact ⟨_, hs⟩
    | tail _ hs => exact ⟨_, hs⟩
  rcases hlast with ⟨x, n, hfind, hbmem⟩
  rcases List.mem_map.mp hbmem with ⟨p, hp, rfl⟩
  exact hoc n (findNode_mem hfind).1 p hp

lemma descSet_finite {st : List NodeSt} (hoc : OutClosed st) (a : Nat) :
    (descSet st a).Finite :=
  Set.Finite.subset (st.map NodeSt.id).finite_toSet (descSet_subset_ids hoc a)

lemma measure_lt {st : List NodeSt} (hoc : OutClosed st) (hacy : AcyclicSt st)
    {a b : Nat} (hab : stepRel st a b) :
    (descSet st b).ncard < (descSet st a).ncard := by
  apply Set.ncard_lt_ncard
  · constructor
    · intro x hx
      exact (Relation.TransGen.single hab).trans hx
    · intro h2
      exact hacy b (h2 (Relation.TransGen.single hab))
  · exact descSet_finite hoc a

lemma outClosed_shape {st st' : List NodeSt}
    (h : List.Forall₂ SameShape st st') (hoc : OutClosed st) : OutClosed st' := by
  intro b hb p hp
  rcases shape_mem_right h b hb with ⟨a, ha, hs⟩
  have houts : b.output_nodes = a.output_nodes := by rw [hs]
  rw [houts] at hp
  rw [ids_shape h]
  exact hoc a ha p hp

lemma acyclic_shape {st st' : List NodeSt}
    (h : List.Forall₂ SameShape st st') (hacy : AcyclicSt st) : AcyclicSt st' := by
  intro a ha
  rw [stepRel_shape h] at ha
  exact hacy a ha

lemma findNode_isSome_of_mem {st : List NodeSt} {id : Nat}
    (h : id ∈ st.map NodeSt.id) : ∃ n, findNode st id = some n := by
  rcases List.mem_map.mp h with ⟨n, hn, rfl⟩
  apply Option.isSome_iff_exists.mp
  unfold findNode
  rw [List.find?_isSome]
  exact ⟨n, hn, by simp⟩

lemma updateList_total :
    ∀ fuel (l : List Nat) (st : List NodeSt), OutClosed st → AcyclicSt st →
      (∀ c ∈ l, c ∈ st.map NodeSt.id) →
      (∀ c ∈ l, (descSet st c).ncard < fuel) →
      (updateList fuel st l).isSome = true := by
  intro fuel
  induction fuel with
  | zero =>
    intro l st _ _ _ hm
    match l with
    | [] => rw [updateList]; rfl
    | c :: cs => exact absurd (hm c (List.mem_cons_self c cs)) (by omega)
  | succ fuel ih =>
    intro l
    induction l with
    | nil =>
      intro st _ _ _ _
      rw [updateList]
      rfl
    | cons id rest ihl =>
      intro st hoc hacy hmem hm
      rcases findNode_isSome_of_mem (hmem id (List.mem_cons_self id rest)) with ⟨n, hfind⟩
      have hshape1 := setCached_shape st id (updateCached st n)
      set st1 := setCached st id (updateCached st n) with hst1
      have hoc1 : OutClosed st1 := outClosed_shape hshape1 hoc
      have hacy1 : AcyclicSt st1 := acyclic_shape hshape1 hacy
      have hchild : ∀ c ∈ n.output_nodes.map Prod.fst, stepRel st id c := by
        intro c hc
        exact ⟨n, hfind, hc⟩
      have hrec : (updateList fuel st1 (n.output_nodes.map Prod.fst)).isSome = true := by
        apply ih _ st1 hoc1 hacy1
        · intro c hc
          rw [ids_shape hshape1]
          rcases List.mem_map.mp hc with ⟨p, hp, rfl⟩
          exact hoc n (findNode_mem hfind).1 p hp
        · intro c hc
          rw [descSet_shape hshape1]
          have h1 := measure_lt hoc hacy (hchild c hc)
          have h2 := hm id (List.mem_cons_self id rest)
          omega
      rcases Option.isSome_iff_exists.mp hrec with ⟨st2, hst2⟩
      have hshape2 : List.Forall₂ SameShape st st2 :=
        forall₂_shape_trans hshape1 (updateList_shape fuel _ st1 st2 hst2)
      rw [updateList, hfind]
      simp only
      rw [hst2]
      apply ihl st2 (outClosed_shape hshape2 hoc) (acyclic_shape hshape2 hacy)
      · intro c hc
        rw [ids_shape hshape2]
        exact hmem c (List.mem_cons_of_mem id hc)
      · intro c hc
        rw [descSet_shape hshape2]
        exact hm c (List.mem_cons_of_mem id hc)

/-- C5: an update walk that completes never escapes with an exception and has
no effect on any node other than replacing cached values: every node of the
resulting state agrees with the corresponding original node on id,
input_nodes, output_nodes and process, differing at most in cached. Failures
of the processing capability are caught inside the step (updateCached wraps
them as ProcessError in cached), so the model's only abnormal outcome, none,
corresponds to the walk not terminating. -/
theorem C5_update_only_cached (fuel : Nat) (st : List NodeSt) (id : Nat)
    (st' : List NodeSt) (h : update fuel st id = some st') :
    List.Forall₂ (fun a b => b = { a with cached := b.cached }) st st' :=
  updateList_shape fuel [id] st st' h

/-- One-node state whose process succeeds with 0; used as witness instance. -/
def stC5w : List NodeSt :=
  [ { id := 0, cached := cachedInit, input_nodes := [], output_nodes := [],
      proc := procTriv } ]

/-- Result of running update on stC5w: the cached value becomes data 0. -/
def stC5w' : List NodeSt :=
  [ { id := 0, cached := .data 0, input_nodes := [], output_nodes := [],
      proc := procTriv } ]

lemma update_stC5w : update 1 stC5w 0 = some stC5w' := by
  show updateList 1 stC5w [0] = some stC5w'
  rw [updateList]
  have hf : findNode stC5w 0 =
      some { id := 0, cached := cachedInit, input_nodes := [], output_nodes := [],
             proc := procTriv } := rfl
  rw [hf]
  dsimp only [List.map_nil]
  rw [updateList]
  dsimp only
  rw [updateList]
  rfl

/-- Witness for the update frame property on the concrete one-node state. -/
theorem C5_witness :
    update 1 stC5w 0 = some stC5w' ∧
    List.Forall₂ (fun a b => b = { a with cached := b.cached }) stC5w stC5w' :=
  ⟨update_stC5w, C5_update_only_cached 1 stC5w 0 stC5w' update_stC5w⟩

lemma no_outputs_no_step (st : List NodeSt) (h : ∀ n ∈ st, n.output_nodes = []) :
    ∀ a b, ¬ stepRel st a b := by
  rintro a b ⟨n, hf, hb⟩
  rw [h n (findNode_mem hf).1] at hb
  simp at hb

lemma acyclic_of_no_outputs (st : List NodeSt)
    (h : ∀ n ∈ st, n.output_nodes = []) : AcyclicSt st := by
  intro a ha
  cases ha with
  | single hs => exact no_outputs_no_step st h _ _ hs
  | tail _ hs => exact no_outputs_no_step st h _ _ hs

/-- C10: on a state whose downstream reachability is acyclic (and closed),
update terminates: some amount of fuel, bounding the depth of the walk, makes
the recursive walk complete. The proof descends on the strictly decreasing
count of downstream descendants, which is well-founded exactly because the
downstream relation is acyclic; no visited-set deduplication is involved. -/
theorem C10_update_terminates (st : List NodeSt) (id : Nat)
    (hoc : OutClosed st) (hacy : AcyclicSt st) (hid : id ∈ st.map NodeSt.id) :
    ∃ fuel st', update fuel st id = some st' := by
  have h := updateList_total ((descSet st id).ncard + 1) [id] st hoc hacy
    (by intro c hc; rw [List.mem_singleton.mp hc]; exact hid)
    (by intro c hc; rw [List.mem_singleton.mp hc]; omega)
  rcases Option.isSome_iff_exists.mp h with ⟨st', hst'⟩
  exact ⟨_, st', hst'⟩

/-- Witness for termination on the concrete acyclic one-node state. -/
theorem C10_witness : ∃ fuel st', update fuel stC5w 0 = some st' :=
  C10_update_terminates stC5w 0 (by decide)
    (acyclic_of_no_outputs stC5w (by decide)) (by decide)

lemma findNode_setCached (st : List NodeSt) (id j : Nat) (r : NodeResult) :
    findNode (setCached st id r) j =
      (findNode st j).map (fun m => if m.id = id then { m with cached := r } else m) := by
  unfold findNode setCached
  rw [List.find?_map]
  congr 1
  congr 1
  funext m
  by_cases h : m.id = id
  · simp [Function.comp, h]
  · simp [Function.comp, h]

lemma findNode_setCached_ne {st : List NodeSt} {id j : Nat} (r : NodeResult)
    (h : id ≠ j) : findNode (setCached st id r) j = findNode st j := by
  rw [findNode_setCached]
  match hf : findNode st j with
  | none => rfl
  | some n =>
    have hnj : n.id = j := (findNode_mem hf).2
    simp only [Option.map_some']
    rw [if_neg (by rw [hnj]; exact fun h2 => h h2.symm)]

lemma findNode_setCached_self {st : List NodeSt} {id : Nat} {n : NodeSt}
    (r : NodeResult) (hf : findNode st id = some n) :
    findNode (setCached st id r) id = some { n with cached := r } := by
  rw [findNode_setCached, hf]
  simp only [Option.map_some']
  rw [if_pos (findNode_mem hf).2]

lemma updateList_untouched :
    ∀ fuel (l : List Nat) (st st' : List NodeSt), updateList fuel st l = some st' →
      ∀ j, (∀ c ∈ l, c ≠ j ∧ ¬ Relation.TransGen (stepRel st) c j) →
      findNode st' j = findNode st j := by
  intro fuel
  induction fuel with
  | zero =>
    intro l st st' h j hl
    match l with
    | [] => rw [updateList] at h; cases h; rfl
    | x :: xs => rw [updateList] at h; cases h
  | succ fuel ih =>
    intro l
    induction l with
    | nil =>
      intro st st' h j hl
      rw [updateList] at h
      cases h
      rfl
    | cons id rest ihl =>
      intro st st' h j hl
      rw [updateList] at h
      match hfind : findNode st id with
      | none => rw [hfind] at h; cases h
      | some n =>
        rw [hfind] at h
        simp only at h
        match hrec : updateList fuel (setCached st id (updateCached st n))
            (n.output_nodes.map Prod.fst) with
        | none => rw [hrec] at h; cases h
        | some st2 =>
          rw [hrec] at h
          have hidj := hl id (List.mem_cons_self id rest)
          have hshape1 := setCached_shape st id (updateCached st n)
          have hshape2 := updateList_shape fuel _ _ st2 hrec
          have hshape12 := forall₂_shape_trans hshape1 hshape2
          have hch : ∀ c ∈ n.output_nodes.map Prod.fst,
              c ≠ j ∧ ¬ Relation.TransGen
                (stepRel (setCached st id (updateCached st n))) c j := by
            intro c hc
            have hstep : stepRel st id c := ⟨n, hfind, hc⟩
            constructor
            · rintro rfl
              exact hidj.2 (Relation.TransGen.single hstep)
            · rw [stepRel_shape hshape1]
              intro htc
              exact hidj.2 (Relation.TransGen.head hstep htc)
          have e1 := ih _ _ st2 hrec j hch
          have e2 := @findNode_setCached_ne st id j (updateCached st n) hidj.1
          have hrest : ∀ c ∈ rest, c ≠ j ∧ ¬ Relation.TransGen (stepRel st2) c j := by
            intro c hc
            have h2 := hl c (List.mem_cons_of_mem id hc)
            rw [stepRel_shape hshape12]
            exact h2
          have e3 := ihl st2 st' h j hrest
          rw [e3, e1, e2]

/-- A slot of a node is invalid when it is in range and either unconnected or
fed by a node whose cached value is an error. -/
def InvalidSlot (st : List NodeSt) (n : NodeSt) (k : Nat) : Prop :=
  k < n.input_nodes.length ∧
    (n.input_nodes.getD k none = none ∨
      ∃ iid m e, n.input_nodes.getD k none = some iid ∧ findNode st iid = some m ∧
        m.cached = .error e)

lemma getD_mem_of_lt {l : List (Option Nat)} {k : Nat} (h : k < l.length) :
    l.getD k none ∈ l := by
  rw [List.getD_eq_getElem?_getD, List.getElem?_eq_getElem h]
  exact List.getElem_mem h

lemma slotErr_none_of_valid {st : List NodeSt} {n : NodeSt} {j : Nat}
    (hwf : ∀ iid, some iid ∈ n.input_nodes → (findNode st iid).isSome = true)
    (hj : j < n.input_nodes.length) (hnotinv : ¬ InvalidSlot st n j) :
    slotErr st (n.input_nodes.getD j none) j = none := by
  match hs : n.input_nodes.getD j none with
  | none => exact absurd ⟨hj, Or.inl hs⟩ hnotinv
  | some iid =>
    have hmem : some iid ∈ n.input_nodes := hs ▸ getD_mem_of_lt hj
    rcases Option.isSome_iff_exists.mp (hwf iid hmem) with ⟨m, hm⟩
    match hc : m.cached with
    | .data v => simp only [slotErr, hm, hc]
    | .error e => exact absurd ⟨hj, Or.inr ⟨iid, m, e, hs, hm, hc⟩⟩ hnotinv

lemma firstErrAux_spec {st : List NodeSt} :
    ∀ (l : List (Option Nat)) (k0 i : Nat) (e : ErrVal),
      (∀ j < i, slotErr st (l.getD j none) (k0 + j) = none) →
      i < l.length → slotErr st (l.getD i none) (k0 + i) = some e →
      firstErrAux st l k0 = some e := by
  intro l
  induction l with
  | nil =>
    intro k0 i e _ hi _
    simp at hi
  | cons s rest ih =>
    intro k0 i e hnone hi hsome
    match i with
    | 0 =>
      rw [firstErrAux]
      have : slotErr st s k0 = some e := by
        have := hsome
        simpa using this
      rw [this]
    | i + 1 =>
      rw [firstErrAux]
      have h0 : slotErr st s k0 = none := by
        have := hnone 0 (by omega)
        simpa using this
      rw [h0]
      apply ih (k0 + 1) i e
      · intro j hj
        have := hnone (j + 1) (by omega)
        simp only [List.getD_cons_succ] at this
        rw [show k0 + 1 + j = k0 + (j + 1) from by omega]
        exact this
      · simpa using hi
      · simp only [List.getD_cons_succ] at hsome
        rw [show k0 + 1 + i = k0 + (i + 1) from by omega]
        exact hsome

lemma errors_resolved_first {st : List NodeSt} {n : NodeSt} {k : Nat}
    (hwf : ∀ iid, some iid ∈ n.input_nodes → (findNode st iid).isSome = true)
    (hk : InvalidSlot st n k) (hmin : ∀ j < k, ¬ InvalidSlot st n j) :
    ∃ e, errors_resolved st n = some e ∧
      slotErr st (n.input_nodes.getD k none) k = some e := by
  have hsome : ∃ e, slotErr st (n.input_nodes.getD k none) k = some e := by
    rcases hk.2 with hnone | ⟨iid, m, e, hiid, hm, hc⟩
    · rw [hnone]
      exact ⟨.inputError k .notConnected, rfl⟩
    · refine ⟨.inputError k e, ?_⟩
      rw [hiid]
      simp only [slotErr, hm, hc]
  rcases hsome with ⟨e, he⟩
  refine ⟨e, ?_, he⟩
  unfold errors_resolved
  have := firstErrAux_spec n.input_nodes 0 k e
    (fun j hj => by
      rw [Nat.zero_add]
      have h1 := hk.1
      exact slotErr_none_of_valid hwf (by omega) (hmin j hj))
    hk.1
    (by rw [Nat.zero_add]; exact he)
  exact this

/-- C4: when a node has at least one invalid input slot and its downstream
region does not cycle back to it, a completed update leaves its cached value
as the InputError at the lowest invalid index k, wrapping NotConnected if slot
k is unconnected and the upstream's cached error otherwise; the processing
capability is never consulted. -/
theorem C4_first_invalid_input (st : List NodeSt) (id : Nat) (n : NodeSt)
    (k fuel : Nat) (st' : List NodeSt)
    (hn : findNode st id = some n)
    (hwf : ∀ iid, some iid ∈ n.input_nodes → (findNode st iid).isSome = true)
    (hk : InvalidSlot st n k)
    (hmin : ∀ j < k, ¬ InvalidSlot st n j)
    (hacy : ¬ Relation.TransGen (stepRel st) id id)
    (hrun : update fuel st id = some st') :
    ∃ n', findNode st' id = some n' ∧
      ((n.input_nodes.getD k none = none →
          n'.cached = .error (.inputError k .notConnected)) ∧
       (∀ iid m e, n.input_nodes.getD k none = some iid → findNode st iid = some m →
          m.cached = .error e → n'.cached = .error (.inputError k e))) := by
  rcases errors_resolved_first hwf hk hmin with ⟨e0, he0, hslot⟩
  have hcache : updateCached st n = .error e0 := by
    unfold updateCached
    rw [he0]
  unfold update at hrun
  match fuel with
  | 0 =>
    rw [updateList] at hrun
    cases hrun
  | fuel + 1 =>
    rw [updateList, hn] at hrun
    simp only at hrun
    match hrec : updateList fuel (setCached st id (updateCached st n))
        (n.output_nodes.map Prod.fst) with
    | none => rw [hrec] at hrun; cases hrun
    | some st2 =>
      rw [hrec] at hrun
      have hrun2 : updateList (fuel + 1) st2 [] = some st' := hrun
      rw [updateList] at hrun2
      cases hrun2
      have hshape1 := setCached_shape st id (updateCached st n)
      have hch : ∀ c ∈ n.output_nodes.map Prod.fst,
          c ≠ id ∧ ¬ Relation.TransGen
            (stepRel (setCached st id (updateCached st n))) c id := by
        intro c hc
        have hstep : stepRel st id c := ⟨n, hn, hc⟩
        constructor
        · rintro rfl
          exact hacy (Relation.TransGen.single hstep)
        · rw [stepRel_shape hshape1]
          intro htc
          exact hacy (Relation.TransGen.head hstep htc)
      have e1 := updateList_untouched fuel _ _ st' hrec id hch
      have e2 := findNode_setCached_self (updateCached st n) hn
      refine ⟨{ n with cached := updateCached st n }, by rw [e1, e2], ?_, ?_⟩
      · intro hnone
        rw [hnone] at hslot
        have : e0 = .inputError k .notConnected := by
          have h2 : (some (ErrVal.inputError k .notConnected) : Option ErrVal) = some e0 := hslot
          exact (Option.some.inj h2).symm
        simp only [hcache, this]
      · intro iid m e hiid hm hc
        rw [hiid] at hslot
        simp only [slotErr, hm, hc] at hslot
        have : e0 = .inputError k e := (Option.some.inj hslot).symm
        simp only [hcache, this]

/-- One-node state with a single unconnected input slot. -/
def stC4w : List NodeSt :=
  [ { id := 0, cached := .data 5, input_nodes := [none], output_nodes := [],
      proc := procTriv } ]

lemma update_stC4w :
    update 1 stC4w 0 =
      some [ { id := 0, cached := .error (.inputError 0 .notConnected),
               input_nodes := [none], output_nodes := [], proc := procTriv } ] := by
  show updateList 1 stC4w [0] = _
  rw [updateList]
  have hf : findNode stC4w 0 =
      some { id := 0, cached := .data 5, input_nodes := [none], output_nodes := [],
             proc := procTriv } := rfl
  rw [hf]
  dsimp only [List.map_nil]
  rw [updateList]
  dsimp only
  rw [updateList]
  rfl

/-- Witness for the lowest-invalid-input error: a node with one unconnected
input caches InputError 0 wrapping NotConnected after its update. -/
theorem C4_witness :
    ∃ n', findNode
        [ { id := 0, cached := .error (.inputError 0 .notConnected),
            input_nodes := [none], output_nodes := [], proc := procTriv } ] 0 =
        some n' ∧
      ((([none] : List (Option Nat)).getD 0 none = none →
          n'.cached = .error (.inputError 0 .notConnected)) ∧
       (∀ iid m e, ([none] : List (Option Nat)).getD 0 none = some iid →
          findNode stC4w iid = some m →
          m.cached = .error e → n'.cached = .error (.inputError 0 e))) :=
  C4_first_invalid_input stC4w 0
    { id := 0, cached := .data 5, input_nodes := [none], output_nodes := [],
      proc := procTriv }
    0 1 _ rfl
    (by intro iid h; simp at h)
    ⟨by decide, Or.inl rfl⟩
    (by intro j hj; omega)
    ((acyclic_of_no_outputs stC4w (by decide)) 0)
    update_stC4w

/-! Transform-order compiler (evaluationGraph.ts). -/

/-- Flat graph (toFlatGraph's output): node id mapped to the ordered list of
the ids it reads, none marking an unconnected reference (a source). The opaque
RenderNode payload of a flat node is represented by the node's id. -/
abbrev FlatGraph := List (Nat × List (Option Nat))

/-- Property read graph[k] on the flat graph object. -/
def lookupFG (g : FlatGraph) (k : Nat) : Option (List (Option Nat)) :=
  (g.find? (fun p => p.1 = k)).map Prod.snd

/-- Keys of the flat graph. -/
def keysFG (g : FlatGraph) : Finset Nat := (g.map Prod.fst).toFinset

/-- One compiled execution step: renderer (none for a source), write slot and
ordered read slots. -/
structure Transform where
  render : Option Nat
  write : Nat
  reads : List Nat
deriving DecidableEq, Repr

/-- One read dependency edge of the flat graph. -/
def stepFG (g : FlatGraph) (a b : Nat) : Prop :=
  ∃ reads, lookupFG g a = some reads ∧ some b ∈ reads

/-- Reachability along read dependencies, including the empty path. -/
def ReachFG (g : FlatGraph) (a b : Nat) : Prop :=
  Relation.ReflTransGen (stepFG g) a b

/-- toTransformOrder as a worklist: the head id is checked against the
in-progress set (a hit is the cycle error), then the covered set (a hit skips
it), then its connected reads are all visited at one less fuel (the fuel
bounds the recursion depth) with the head added to the in-progress set, and
finally the head is appended to the order and marked covered before the tail
continues at the same depth. The order and covered set are threaded through
(the source mutates shared objects); the in-progress set is passed downwards
only, because the source removes the id before returning, so every sibling
starts from the caller's set. A missing key is a TypeError (none). -/
def visitList (g : FlatGraph) :
    Nat → List Nat → List Nat → Finset Nat → Finset Nat →
    Option (List Nat × Finset Nat)
  | _, [], order, _, covered => some (order, covered)
  | 0, _ :: _, _, _, _ => none
  | fuel + 1, id :: rest, order, found, covered =>
    if id ∈ found then none
    else if id ∈ covered then visitList g (fuel + 1) rest order found covered
    else
      match lookupFG g id with
      | none => none
      | some reads =>
        match visitList g fuel (reads.filterMap (fun x => x)) order
            (insert id found) covered with
        | none => none
        | some (o2, cov2) =>
          visitList g (fuel + 1) rest (o2 ++ [id]) found (insert id cov2)
termination_by fuel l => (fuel, l.length)

/-- Number of unconnected references of one read list. -/
def noneCount (reads : List (Option Nat)) : Nat :=
  (reads.filter (fun c => c.isNone)).length

/-- Total number of unconnected references across the whole flat graph
(noSources in toTransforms). -/
def noSources (g : FlatGraph) : Nat :=
  (g.map (fun p => noneCount p.2)).sum

/-- Resolution of one node's reads against the topological positions: an
unconnected read consumes the next source-slot counter value, a connected
read resolves to its node's position (rev) plus the source count. Returns the
resolved slots and the advanced counter. -/
def resolveReads (rev : Nat → Nat) (ns : Nat) :
    List (Option Nat) → Nat → (List Nat × Nat)
  | [], s => ([], s)
  | none :: rest, s =>
    let p := resolveReads rev ns rest (s + 1)
    (s :: p.1, p.2)
  | some c :: rest, s =>
    let p := resolveReads rev ns rest s
    ((rev c + ns) :: p.1, p.2)

/-- The mapped body of toTransforms over the topological order, threading the
position i and the running source counter s. -/
def buildTransforms (g : FlatGraph) (rev : Nat → Nat) (ns : Nat) :
    List Nat → Nat → Nat → Option (List Transform)
  | [], _, _ => some []
  | id :: rest, i, s =>
    match lookupFG g id with
    | none => none
    | some reads =>
      let p := resolveReads rev ns reads s
      (buildTransforms g rev ns rest (i + 1) p.2).map
        (fun ts => (⟨some id, i + ns, p.1⟩ : Transform) :: ts)

/-- evaluationGraph.toTransforms, parameterised by the chosen root. Modelled
from the spec: the source takes the root from rootsIn of the diagram-schema
variant of schemaMethods (with portToNode), which is not among the sources
here; the spec states one designated root is chosen, so the root is a
parameter, and the FlatGraph parameter stands for toFlatGraph's output. The
reverse lookup table is realised by List.indexOf over the order (the order is
duplicate-free on the success path, and every connected read of an ordered
node occurs in the order, so the table lookup never misses). -/
def toTransforms (g : FlatGraph) (root : Nat) : Option (List Transform) :=
  match visitList g (g.length + 1) [root] [] ∅ ∅ with
  | none => none
  | some (order, _) =>
    let ns := noSources g
    let sources := (List.range ns).map (fun i => (⟨none, i, []⟩ : Transform))
    (buildTransforms g (fun c => order.indexOf c) ns order 0 0).map
      (fun ts => sources ++ ts)

/-- Well-formedness of a produced order: every ordered node is a key and all
its connected reads occur strictly earlier in the order. -/
def GoodOrder (g : FlatGraph) (order : List Nat) : Prop :=
  ∀ i (h : i < order.length), ∃ reads, lookupFG g order[i] = some reads ∧
    ∀ c, some c ∈ reads → c ∈ order.take i

lemma goodOrder_nil (g : FlatGraph) : GoodOrder g [] := by
  intro i h
  simp at h

lemma goodOrder_append_single {g : FlatGraph} {order : List Nat} {id : Nat}
    {reads : List (Option Nat)}
    (hgood : GoodOrder g order) (hlook : lookupFG g id = some reads)
    (hconn : ∀ c, some c ∈ reads → c ∈ order) :
    GoodOrder g (order ++ [id]) := by
  intro i h
  by_cases hi : i < order.length
  · obtain ⟨reads2, hl2, hc2⟩ := hgood i hi
    refine ⟨reads2, ?_, ?_⟩
    · rw [List.getElem_append_left hi]
      exact hl2
    · intro c hc
      rw [List.take_append_of_le_length (le_of_lt hi)]
      exact hc2 c hc
  · have hieq : i = order.length := by
      have : i < order.length + 1 := by simpa using h
      omega
    subst hieq
    refine ⟨reads, ?_, ?_⟩
    · have hid : (order ++ [id])[order.length] = id := by simp
      rw [hid]
      exact hlook
    · intro c hc
      rw [List.take_append_of_le_length (le_refl _), List.take_length]
      exact hconn c hc

lemma visitList_inv (g : FlatGraph) :
    ∀ fuel (l : List Nat) (order : List Nat) (found covered : Finset Nat)
      (o2 : List Nat) (cov2 : Finset Nat),
      visitList g fuel l order found covered = some (o2, cov2) →
      covered = order.toFinset → order.Nodup → GoodOrder g order →
      (cov2 = o2.toFinset ∧ o2.Nodup ∧ GoodOrder g o2 ∧
       (∃ pre, o2 = order ++ pre) ∧
       (∀ x ∈ l, x ∈ cov2) ∧
       (∀ x ∈ cov2, x ∈ covered ∨ x ∉ found)) := by
  intro fuel
  induction fuel with
  | zero =>
    intro l order found covered o2 cov2 h hcov hnd hgood
    match l with
    | [] =>
      rw [visitList] at h
      cases h
      exact ⟨hcov, hnd, hgood, ⟨[], by simp⟩, by simp, fun x hx => Or.inl hx⟩
    | x :: xs => rw [visitList] at h; cases h
  | succ fuel ih =>
    intro l
    induction l with
    | nil =>
      intro order found covered o2 cov2 h hcov hnd hgood
      rw [visitList] at h
      cases h
      exact ⟨hcov, hnd, hgood, ⟨[], by simp⟩, by simp, fun x hx => Or.inl hx⟩
    | cons id rest ihl =>
      intro order found covered o2 cov2 h hcov hnd hgood
      rw [visitList] at h
      by_cases hfound : id ∈ found
      · rw [if_pos hfound] at h; cases h
      · rw [if_neg hfound] at h
        by_cases hcovered : id ∈ covered
        · rw [if_pos hcovered] at h
          obtain ⟨h1, h2, h3, ⟨pre, hpre⟩, h5, h6⟩ :=
            ihl order found covered o2 cov2 h hcov hnd hgood
          refine ⟨h1, h2, h3, ⟨pre, hpre⟩, ?_, h6⟩
          intro x hx
          rcases List.mem_cons.mp hx with rfl | hx
          · rw [h1, hpre]
            simp only [List.toFinset_append, Finset.mem_union]
            left
            rw [← hcov]
            exact hcovered
          · exact h5 x hx
        · rw [if_neg hcovered] at h
          match hlook : lookupFG g id with
          | none => rw [hlook] at h; cases h
          | some reads =>
            rw [hlook] at h
            simp only at h
            match hrec : visitList g fuel (reads.filterMap (fun x => x)) order
                (insert id found) covered with
            | none => rw [hrec] at h; cases h
            | some pr =>
              match pr with
              | (oc, covc) =>
              rw [hrec] at h
              obtain ⟨hc1, hc2, hc3, ⟨prec, hprec⟩, hc5, hc6⟩ :=
                ih _ order (insert id found) covered oc covc hrec hcov hnd hgood
              have hidnot : id ∉ oc := by
                intro hmem
                have hidc : id ∈ covc := by
                  rw [hc1]
                  exact List.mem_toFinset.mpr hmem
                rcases hc6 id hidc with h7 | h7
                · exact hcovered h7
                · exact h7 (Finset.mem_insert_self id found)
              have hconn : ∀ c, some c ∈ reads → c ∈ oc := by
                intro c hcmem
                have hcf : c ∈ reads.filterMap (fun x => x) := by
                  rw [List.mem_filterMap]
                  exact ⟨some c, hcmem, rfl⟩
                have := hc5 c hcf
                rw [hc1] at this
                exact List.mem_toFinset.mp this
              have hgood3 : GoodOrder g (oc ++ [id]) :=
                goodOrder_append_single hc3 hlook hconn
              have hnd3 : (oc ++ [id]).Nodup := by
                rw [List.nodup_append]
                exact ⟨hc2, List.nodup_singleton id, by simpa using hidnot⟩
              have hcov3 : insert id covc = (oc ++ [id]).toFinset := by
                rw [hc1]
                ext x
                simp [or_comm]
              obtain ⟨h1, h2, h3, ⟨prer, hprer⟩, h5, h6⟩ :=
                ihl (oc ++ [id]) found (insert id covc) o2 cov2 h hcov3 hnd3 hgood3
              refine ⟨h1, h2, h3, ?_, ?_, ?_⟩
              · refine ⟨prec ++ [id] ++ prer, ?_⟩
                rw [hprer, hprec]
                simp [List.append_assoc]
              · intro x hx
                rcases List.mem_cons.mp hx with rfl | hx
                · rw [h1, hprer]
                  simp
                · exact h5 x hx
              · intro x hx
                rcases h6 x hx with h7 | h7
                · rcases Finset.mem_insert.mp h7 with rfl | h7
                  · exact Or.inr hfound
                  · rcases hc6 x h7 with h8 | h8
                    · exact Or.inl h8
                    · exact Or.inr (fun h9 => h8 (Finset.mem_insert_of_mem h9))
                · exact Or.inr h7

lemma lookupFG_isSome_of_mem {g : FlatGraph} {k : Nat} (h : k ∈ keysFG g) :
    ∃ reads, lookupFG g k = some reads := by
  unfold keysFG at h
  rw [List.mem_toFinset] at h
  rcases List.mem_map.mp h with ⟨p, hp, rfl⟩
  apply Option.isSome_iff_exists.mp
  unfold lookupFG
  rw [Option.isSome_map']
  rw [List.find?_isSome]
  exact ⟨p, hp, by simp⟩

/-- Preconditions making the traversal from an id succeed: its reachable
region is inside the keys, disjoint from the in-progress set, and acyclic. -/
def PreOK (g : FlatGraph) (found : Finset Nat) (id : Nat) : Prop :=
  (∀ x, ReachFG g id x → x ∈ keysFG g) ∧
  (∀ x, ReachFG g id x → x ∉ found) ∧
  (∀ x, ReachFG g id x → ¬ Relation.TransGen (stepFG g) x x)

lemma visitList_total (g : FlatGraph) :
    ∀ fuel (l : List Nat) (order : List Nat) (found covered : Finset Nat),
      (∀ c ∈ l, PreOK g found c) →
      (keysFG g \ found).card < fuel →
      (visitList g fuel l order found covered).isSome = true := by
  intro fuel
  induction fuel with
  | zero =>
    intro l order found covered hpre hcard
    match l with
    | [] => rw [visitList]; rfl
    | x :: xs => exact absurd hcard (by omega)
  | succ fuel ih =>
    intro l
    induction l with
    | nil =>
      intro order found covered hpre hcard
      rw [visitList]
      rfl
    | cons id rest ihl =>
      intro order found covered hpre hcard
      have hpid := hpre id (List.mem_cons_self id rest)
      rw [visitList]
      have hfound : id ∉ found := hpid.2.1 id Relation.ReflTransGen.refl
      rw [if_neg hfound]
      by_cases hcovered : id ∈ covered
      · rw [if_pos hcovered]
        exact ihl order found covered
          (fun c hc => hpre c (List.mem_cons_of_mem id hc)) hcard
      · rw [if_neg hcovered]
        rcases lookupFG_isSome_of_mem (hpid.1 id Relation.ReflTransGen.refl) with
          ⟨reads, hlook⟩
        rw [hlook]
        simp only
        have hstep : ∀ c ∈ reads.filterMap (fun x => x), stepFG g id c := by
          intro c hc
          rw [List.mem_filterMap] at hc
          rcases hc with ⟨oc, hoc, hco⟩
          refine ⟨reads, hlook, ?_⟩
          have hoceq : oc = some c := hco
          rw [hoceq] at hoc
          exact hoc
        have hprec : ∀ c ∈ reads.filterMap (fun x => x), PreOK g (insert id found) c := by
          intro c hc
          have hs := hstep c hc
          have hreach : ∀ x, ReachFG g c x → ReachFG g id x := fun x hx =>
            Relation.ReflTransGen.head hs hx
          refine ⟨fun x hx => hpid.1 x (hreach x hx), ?_,
            fun x hx => hpid.2.2 x (hreach x hx)⟩
          intro x hx hxf
          rcases Finset.mem_insert.mp hxf with rfl | hxf
          · exact hpid.2.2 x Relation.ReflTransGen.refl
              (Relation.TransGen.head' hs hx)
          · exact hpid.2.1 x (hreach x hx) hxf
        have hcard2 : (keysFG g \ insert id found).card < fuel := by
          have hmem : id ∈ keysFG g \ found :=
            Finset.mem_sdiff.mpr ⟨hpid.1 id Relation.ReflTransGen.refl, hfound⟩
          have heq : keysFG g \ insert id found = (keysFG g \ found).erase id := by
            ext x
            simp only [Finset.mem_sdiff, Finset.mem_erase, Finset.mem_insert]
            tauto
          rw [heq, Finset.card_erase_of_mem hmem]
          have hpos : 0 < (keysFG g \ found).card := Finset.card_pos.mpr ⟨id, hmem⟩
          omega
        have hrec := ih (reads.filterMap (fun x => x)) order (insert id found)
          covered hprec hcard2
        rcases Option.isSome_iff_exists.mp hrec with ⟨pr, hpr⟩
        rw [hpr]
        match pr with
        | (oc, covc) =>
          exact ihl (oc ++ [id]) found (insert id covc)
            (fun c hc => hpre c (List.mem_cons_of_mem id hc)) hcard

/-- Count of unconnected references over a sublist of keys, each resolved
through the graph. -/
def totalNone (g : FlatGraph) (l : List Nat) : Nat :=
  (l.map (fun id => match lookupFG g id with
    | some reads => noneCount reads
    | none => 0)).sum

lemma resolveReads_spec (rev : Nat → Nat) (ns : Nat) :
    ∀ (reads : List (Option Nat)) (s : Nat),
      (resolveReads rev ns reads s).2 = s + noneCount reads ∧
      ∀ r ∈ (resolveReads rev ns reads s).1,
        (s ≤ r ∧ r < s + noneCount reads) ∨
        (∃ c, some c ∈ reads ∧ r = rev c + ns) := by
  intro reads
  induction reads with
  | nil =>
    intro s
    constructor
    · simp [resolveReads, noneCount]
    · intro r hr
      simp [resolveReads] at hr
  | cons o rest ih =>
    intro s
    match o with
    | none =>
      have ihs := ih (s + 1)
      have hnc : noneCount (none :: rest) = noneCount rest + 1 := by
        simp [noneCount]
      constructor
      · simp only [resolveReads]
        rw [ihs.1, hnc]
        omega
      · intro r hr
        simp only [resolveReads] at hr
        rcases List.mem_cons.mp hr with rfl | hr
        · exact Or.inl ⟨le_refl r, by rw [hnc]; omega⟩
        · rcases ihs.2 r hr with ⟨h1, h2⟩ | ⟨c, hc, hr2⟩
          · exact Or.inl ⟨by omega, by rw [hnc]; omega⟩
          · exact Or.inr ⟨c, List.mem_cons_of_mem none hc, hr2⟩
    | some c0 =>
      have ihs := ih s
      have hnc : noneCount (some c0 :: rest) = noneCount rest := by
        simp [noneCount]
      constructor
      · simp only [resolveReads]
        rw [ihs.1, hnc]
      · intro r hr
        simp only [resolveReads] at hr
        rcases List.mem_cons.mp hr with rfl | hr
        · exact Or.inr ⟨c0, List.mem_cons_self _ _, rfl⟩
        · rcases ihs.2 r hr with ⟨h1, h2⟩ | ⟨c, hc, hr2⟩
          · exact Or.inl ⟨h1, by rw [hnc]; omega⟩
          · exact Or.inr ⟨c, List.mem_cons_of_mem _ hc, hr2⟩

lemma totalNone_cons_of_lookup {g : FlatGraph} {id : Nat} {reads : List (Option Nat)}
    (h : lookupFG g id = some reads) (l : List Nat) :
    totalNone g (id :: l) = noneCount reads + totalNone g l := by
  unfold totalNone
  rw [List.map_cons, List.sum_cons, h]

lemma buildTransforms_spec (g : FlatGraph) (rev : Nat → Nat) (ns : Nat) :
    ∀ (l : List Nat) (i s : Nat),
      (∀ id ∈ l, ∃ reads, lookupFG g id = some reads) →
      ∃ ts : List Transform, buildTransforms g rev ns l i s = some ts ∧
        ts.length = l.length ∧
        (∀ (j : Nat) (t : Transform), ts[j]? = some t → t.write = i + j + ns) ∧
        (∀ (j : Nat) (t : Transform) (idn : Nat),
          ts[j]? = some t → l[j]? = some idn → ∀ r ∈ t.reads,
          (s ≤ r ∧ r < s + totalNone g l) ∨
          (∃ c reads2, lookupFG g idn = some reads2 ∧ some c ∈ reads2 ∧
            r = rev c + ns)) := by
  intro l
  induction l with
  | nil =>
    intro i s _
    refine ⟨[], rfl, rfl, ?_, ?_⟩
    · intro j t ht
      rw [List.getElem?_nil] at ht
      cases ht
    · intro j t idn ht
      rw [List.getElem?_nil] at ht
      cases ht
  | cons id rest ih =>
    intro i s hlooks
    rcases hlooks id (List.mem_cons_self id rest) with ⟨reads, hlook⟩
    have hrs := resolveReads_spec rev ns reads s
    rcases ih (i + 1) (resolveReads rev ns reads s).2
      (fun x hx => hlooks x (List.mem_cons_of_mem id hx)) with
      ⟨ts2, hb2, hlen2, hw2, hr2⟩
    refine ⟨(⟨some id, i + ns, (resolveReads rev ns reads s).1⟩ : Transform) :: ts2,
      ?_, by simp [hlen2], ?_, ?_⟩
    · simp only [buildTransforms, hlook]
      rw [hb2]
      rfl
    · intro j t
      match j with
      | 0 =>
        intro ht
        rw [List.getElem?_cons_zero] at ht
        cases ht
        simp only
        omega
      | j + 1 =>
        intro ht
        rw [List.getElem?_cons_succ] at ht
        have := hw2 j t ht
        omega
    · intro j t idn
      match j with
      | 0 =>
        intro ht hidn r hr
        rw [List.getElem?_cons_zero] at ht
        rw [List.getElem?_cons_zero] at hidn
        cases ht
        cases hidn
        simp only at hr
        rcases hrs.2 r hr with ⟨h1, h2⟩ | ⟨c, hc, hr2⟩
        · refine Or.inl ⟨h1, ?_⟩
          rw [totalNone_cons_of_lookup hlook]
          omega
        · exact Or.inr ⟨c, reads, hlook, hc, hr2⟩
      | j + 1 =>
        intro ht hidn r hr
        rw [List.getElem?_cons_succ] at ht
        rw [List.getElem?_cons_succ] at hidn
        rcases hr2 j t idn ht hidn r hr with ⟨h1, h2⟩ | hrr
        · refine Or.inl ⟨?_, ?_⟩
          · rw [hrs.1] at h1
            omega
          · rw [hrs.1] at h2
            rw [totalNone_cons_of_lookup hlook]
            omega
        · exact Or.inr hrr

lemma lookupFG_of_nodup {g : FlatGraph} (hnd : (g.map Prod.fst).Nodup) :
    ∀ {p : Nat × List (Option Nat)}, p ∈ g → lookupFG g p.1 = some p.2 := by
  induction g with
  | nil => intro p hp; simp at hp
  | cons q rest ih =>
    rw [List.map_cons, List.nodup_cons] at hnd
    intro p hp
    rcases List.mem_cons.mp hp with rfl | hp
    · unfold lookupFG
      rw [List.find?_cons_of_pos _ (by simp)]
      rfl
    · unfold lookupFG
      have hne : ¬ (q.1 = p.1) := by
        intro h
        exact hnd.1 (h ▸ List.mem_map_of_mem Prod.fst hp)
      rw [List.find?_cons_of_neg _ (by simpa using hne)]
      exact ih hnd.2 hp

lemma lookupFG_mem_keys {g : FlatGraph} {k : Nat} {reads : List (Option Nat)}
    (h : lookupFG g k = some reads) : k ∈ keysFG g := by
  unfold lookupFG at h
  rcases Option.map_eq_some'.mp h with ⟨p, hp, rfl⟩
  have hmem := List.mem_of_find?_eq_some hp
  have hfst := List.find?_some hp
  simp only [decide_eq_true_eq] at hfst
  unfold keysFG
  rw [List.mem_toFinset, ← hfst]
  exact List.mem_map_of_mem Prod.fst hmem

lemma totalNone_le_noSources {g : FlatGraph} (hnd : (g.map Prod.fst).Nodup)
    {order : List Nat} (hond : order.Nodup)
    (hsub : ∀ x ∈ order, x ∈ keysFG g) :
    totalNone g order ≤ noSources g := by
  set F : Nat → Nat := fun k => match lookupFG g k with
    | some reads => noneCount reads
    | none => 0 with hF
  have h1 : totalNone g order = order.toFinset.sum F := by
    rw [List.sum_toFinset F hond]
    rfl
  have h2 : noSources g = (keysFG g).sum F := by
    unfold noSources keysFG
    rw [List.sum_toFinset F hnd, List.map_map]
    congr 1
    apply List.map_congr_left
    intro p hp
    simp only [Function.comp, hF]
    rw [lookupFG_of_nodup hnd hp]
  rw [h1, h2]
  apply Finset.sum_le_sum_of_subset
  intro x hx
  exact hsub x (List.mem_toFinset.mp hx)

lemma indexOf_lt_of_mem_take {c : Nat} :
    ∀ {l : List Nat} {j : Nat}, c ∈ l.take j → l.indexOf c < j := by
  intro l
  induction l with
  | nil => intro j h; simp at h
  | cons a l ih =>
    intro j h
    match j with
    | 0 => simp at h
    | j + 1 =>
      rw [List.take_succ_cons] at h
      by_cases hca : c = a
      · subst hca
        rw [List.indexOf_cons_self]
        omega
      · rcases List.mem_cons.mp h with rfl | h
        · exact absurd rfl hca
        · rw [List.indexOf_cons_ne _ (fun h2 => hca h2.symm)]
          have := ih h
          omega

lemma goodOrder_lookup_all {g : FlatGraph} {order : List Nat}
    (hgood : GoodOrder g order) :
    ∀ id ∈ order, ∃ reads, lookupFG g id = some reads := by
  intro id hid
  rcases List.getElem_of_mem hid with ⟨i, hi, rfl⟩
  rcases hgood i hi with ⟨reads, hl, _⟩
  exact ⟨reads, hl⟩

lemma step_pos_lt {g : FlatGraph} {order : List Nat}
    (hgood : GoodOrder g order) {a b : Nat}
    (hs : stepFG g a b) (ha : a ∈ order) :
    b ∈ order ∧ order.indexOf b < order.indexOf a := by
  have hlen : order.indexOf a < order.length := List.indexOf_lt_length.mpr ha
  rcases hgood (order.indexOf a) hlen with ⟨reads, hl, hc⟩
  rw [List.getElem_indexOf hlen] at hl
  rcases hs with ⟨reads2, hl2, hb⟩
  rw [hl] at hl2
  have heq := Option.some.inj hl2
  subst heq
  have hbt : b ∈ order.take (order.indexOf a) := hc b hb
  exact ⟨List.take_subset _ _ hbt, indexOf_lt_of_mem_take hbt⟩

/-- C2: with a duplicate-free key set, (1) when the region reachable from the
chosen root lies inside the keys and is acyclic, toTransforms succeeds and
every read slot of every transform is either a source slot below the total
source count or the write slot of a strictly earlier transform; (2) when some
node reachable from the root lies on a cycle, toTransforms fails. -/
theorem C2_toTransforms (g : FlatGraph) (root : Nat)
    (hnd : (g.map Prod.fst).Nodup) :
    ((∀ x, ReachFG g root x → x ∈ keysFG g) →
     (∀ x, ReachFG g root x → ¬ Relation.TransGen (stepFG g) x x) →
     ∃ ts : List Transform, toTransforms g root = some ts ∧
       ∀ p (hp : p < ts.length), ∀ r ∈ ts[p].reads,
         r < noSources g ∨ ∃ q, ∃ hq : q < ts.length, q < p ∧ ts[q].write = r) ∧
    ((∃ x, ReachFG g root x ∧ Relation.TransGen (stepFG g) x x) →
     toTransforms g root = none) := by
  constructor
  · intro hcl hacy
    have htot := visitList_total g (g.length + 1) [root] [] ∅ ∅
      (by
        intro c hc
        rw [List.mem_singleton] at hc
        subst hc
        exact ⟨hcl, fun x _ => Finset.not_mem_empty x, hacy⟩)
      (by
        rw [Finset.sdiff_empty]
        have h1 : (keysFG g).card ≤ g.length := by
          unfold keysFG
          calc (g.map Prod.fst).toFinset.card ≤ (g.map Prod.fst).length :=
                (g.map Prod.fst).toFinset_card_le
            _ = g.length := List.length_map g Prod.fst
        omega)
    rcases Option.isSome_iff_exists.mp htot with ⟨pr, hpr⟩
    obtain ⟨order, cov⟩ := pr
    obtain ⟨hc1, hc2, hc3, _, h5, _⟩ :=
      visitList_inv g (g.length + 1) [root] [] ∅ ∅ order cov hpr (by simp)
        List.nodup_nil (goodOrder_nil g)
    have hlooks := goodOrder_lookup_all hc3
    rcases buildTransforms_spec g (fun c => order.indexOf c) (noSources g) order 0 0
      hlooks with ⟨ts0, hbuild, hlen0, hw0, hr0⟩
    refine ⟨(List.range (noSources g)).map (fun i => (⟨none, i, []⟩ : Transform)) ++ ts0,
      ?_, ?_⟩
    · unfold toTransforms
      rw [hpr]
      simp only
      rw [hbuild]
      rfl
    · have hsl : ((List.range (noSources g)).map
          (fun i => (⟨none, i, []⟩ : Transform))).length = noSources g := by simp
      have hwid : ∀ q (hq : q < ((List.range (noSources g)).map
          (fun i => (⟨none, i, []⟩ : Transform)) ++ ts0).length),
          ((List.range (noSources g)).map
            (fun i => (⟨none, i, []⟩ : Transform)) ++ ts0)[q].write = q := by
        intro q hq
        rw [List.length_append, hsl] at hq
        by_cases hqns : q < noSources g
        · rw [List.getElem_append_left (by rw [hsl]; exact hqns)]
          simp
        · have h1 : ((List.range (noSources g)).map
              (fun i => (⟨none, i, []⟩ : Transform))).length ≤ q := by
            rw [hsl]; omega
          rw [List.getElem_append_right h1]
          have hjb : q - ((List.range (noSources g)).map
              (fun i => (⟨none, i, []⟩ : Transform))).length < ts0.length := by
            rw [hsl]
            omega
          have := hw0 _ _ (List.getElem?_eq_getElem hjb)
          rw [this, hsl]
          omega
      intro p hp r hr
      have hp2 := hp
      rw [List.length_append, hsl] at hp2
      by_cases hpns : p < noSources g
      · exfalso
        rw [List.getElem_append_left (by rw [hsl]; exact hpns)] at hr
        simp at hr
      · have hple : ((List.range (noSources g)).map
            (fun i => (⟨none, i, []⟩ : Transform))).length ≤ p := by
          rw [hsl]; omega
        rw [List.getElem_append_right hple] at hr
        have hjlen : p - ((List.range (noSources g)).map
            (fun i => (⟨none, i, []⟩ : Transform))).length < ts0.length := by
          rw [hsl]; omega
        have hjord : p - ((List.range (noSources g)).map
            (fun i => (⟨none, i, []⟩ : Transform))).length < order.length := by
          rw [← hlen0]; exact hjlen
        rcases hr0 _ _ _ (List.getElem?_eq_getElem hjlen)
            (List.getElem?_eq_getElem hjord) r hr with ⟨h1, h2⟩ |
            ⟨c, reads2, hl2, hcmem, hrc⟩
        · left
          have hsubk : ∀ x ∈ order, x ∈ keysFG g := by
            intro x hx
            rcases hlooks x hx with ⟨rds, hrd⟩
            exact lookupFG_mem_keys hrd
          have hle := totalNone_le_noSources hnd hc2 hsubk
          omega
        · rcases hc3 _ hjord with ⟨reads3, hl3, hcon3⟩
          rw [hl3] at hl2
          have heq := Option.some.inj hl2
          subst heq
          have hctake := hcon3 c hcmem
          have hidx := indexOf_lt_of_mem_take hctake
          right
          have hq : r < ((List.range (noSources g)).map
              (fun i => (⟨none, i, []⟩ : Transform)) ++ ts0).length := by
            rw [List.length_append, hsl, hrc]
            rw [hsl] at hidx
            omega
          refine ⟨r, hq, ?_, hwid r hq⟩
          rw [hrc]
          rw [hsl] at hidx
          omega
  · rintro ⟨x, hrx, hcyc⟩
    match hv : visitList g (g.length + 1) [root] [] ∅ ∅ with
    | none =>
      unfold toTransforms
      rw [hv]
    | some pr =>
      exfalso
      obtain ⟨order, cov⟩ := pr
      obtain ⟨hc1, hc2, hc3, _, h5, _⟩ :=
        visitList_inv g (g.length + 1) [root] [] ∅ ∅ order cov hv (by simp)
          List.nodup_nil (goodOrder_nil g)
      have hrootmem : root ∈ order := by
        have := h5 root (List.mem_singleton_self root)
        rw [hc1] at this
        exact List.mem_toFinset.mp this
      have hreach_mem : ∀ y, ReachFG g root y → y ∈ order := by
        intro y hy
        induction hy with
        | refl => exact hrootmem
        | tail hpath hs ih => exact (step_pos_lt hc3 hs ih).1
      have hxmem : x ∈ order := hreach_mem x hrx
      have hdesc : ∀ {a b : Nat}, Relation.TransGen (stepFG g) a b → a ∈ order →
          b ∈ order ∧ order.indexOf b < order.indexOf a := by
        intro a b h ha
        induction h with
        | single hs => exact step_pos_lt hc3 hs ha
        | tail hpath hs ih =>
          rcases ih with ⟨hbmem, hlt⟩
          rcases step_pos_lt hc3 hs hbmem with ⟨hcm, hlt2⟩
          exact ⟨hcm, lt_trans hlt2 hlt⟩
      have := (hdesc hcyc hxmem).2
      omega

/-- One-node acyclic flat graph: node 0 reads a single source. -/
def gC2w : FlatGraph := [(0, [none])]

/-- One-node cyclic flat graph: node 1 reads itself. -/
def gC2cyc : FlatGraph := [(1, [some 1])]

lemma gC2w_nostep : ∀ a b, ¬ stepFG gC2w a b := by
  rintro a b ⟨reads, hl, hb⟩
  by_cases ha : a = 0
  · subst ha
    have heq : lookupFG gC2w 0 = some [none] := rfl
    rw [heq] at hl
    have hre := Option.some.inj hl
    rw [← hre] at hb
    simp at hb
  · have heq : lookupFG gC2w a = none := by
      unfold lookupFG gC2w
      rw [List.find?_cons_of_neg _ (by simpa using fun h => ha h.symm)]
      rfl
    rw [heq] at hl
    cases hl

/-- Witness for the compiler claim: on the one-node acyclic graph toTransforms
succeeds with the ordering property, and on the one-node self-loop it fails. -/
theorem C2_witness :
    (∃ ts : List Transform, toTransforms gC2w 0 = some ts ∧
       ∀ p (hp : p < ts.length), ∀ r ∈ ts[p].reads,
         r < noSources gC2w ∨ ∃ q, ∃ hq : q < ts.length, q < p ∧ ts[q].write = r) ∧
    toTransforms gC2cyc 1 = none := by
  constructor
  · apply (C2_toTransforms gC2w 0 (by decide)).1
    · intro x hx
      have hx0 : x = 0 := by
        induction hx with
        | refl => rfl
        | tail hpath hs ih => exact absurd hs (gC2w_nostep _ _)
      rw [hx0]
      decide
    · intro x hx hcyc
      cases hcyc with
      | single hs => exact gC2w_nostep _ _ hs
      | tail hpath hs => exact gC2w_nostep _ _ hs
  · exact (C2_toTransforms gC2cyc 1 (by decide)).2
      ⟨1, Relation.ReflTransGen.refl,
        Relation.TransGen.single ⟨[some 1], rfl, by simp⟩⟩

/-! Register allocator (evaluationGraph.ts: conflict scan, greedyColour,
addColour, optimiseTransforms). -/

/-- Map.get on a JavaScript Map modelled as an insertion-ordered association
list. -/
def mapGet (m : List (Nat × Nat)) (k : Nat) : Option Nat :=
  (m.find? (fun p => p.1 = k)).map Prod.snd

/-- Map.set: overwrite in place when present, append otherwise. -/
def mapSet (m : List (Nat × Nat)) (k v : Nat) : List (Nat × Nat) :=
  if m.any (fun p => p.1 = k) then m.map (fun p => if p.1 = k then (k, v) else p)
  else m ++ [(k, v)]

/-- evaluationGraph.isComplete: every node already has a colour. -/
def isComplete (nodes : List Nat) (colours : List (Nat × Nat)) : Bool :=
  nodes.all (fun n => (mapGet colours n).isSome)

/-- evaluationGraph.addColour: walk the nodes in order; an uncoloured node
whose neighbour list in the conflict graph nowhere holds the colour receives
it. For a node absent from the conflict graph, graph.get(node) is undefined
and .every on it is a TypeError: the model aborts with none. -/
def addColour (nodes : List Nat) (graph : Graph) (colours : List (Nat × Nat))
    (colour : Nat) : Option (List (Nat × Nat)) :=
  nodes.foldlM (fun cols n =>
    match mapGet cols n with
    | some _ => some cols
    | none =>
      match lookupG graph n with
      | none => none
      | some nbrs =>
        if nbrs.all (fun c => decide (mapGet cols c ≠ some colour))
        then some (mapSet cols n colour)
        else some cols) colours

/-- Conflict adjacency built from the links, pushing each endpoint onto the
other's list with a get-or-default. -/
def buildConflictGraph (links : List (Nat × Nat)) : Graph :=
  links.foldl (fun g l =>
    let g1 := setKeyG g l.1 (((lookupG g l.1).getD []) ++ [l.2])
    setKeyG g1 l.2 (((lookupG g1 l.2).getD []) ++ [l.1])) []

/-- While-loop of greedyColour: add colours 0, 1, 2, ... until every node is
coloured. Each completed round colours at least the first uncoloured node (its
neighbours only hold strictly smaller colours), so nodes.length + 1 rounds
suffice whenever no round crashes; the fuel mirrors that bound. -/
def greedyLoop (nodes : List Nat) (graph : Graph) :
    Nat → List (Nat × Nat) → Nat → Option (List (Nat × Nat))
  | 0, colours, _ => if isComplete nodes colours then some colours else none
  | fuel + 1, colours, colour =>
    if isComplete nodes colours then some colours
    else
      match addColour nodes graph colours colour with
      | none => none
      | some cols2 => greedyLoop nodes graph fuel cols2 (colour + 1)

/-- evaluationGraph.greedyColour: colour the conflict graph greedily and read
every node's colour back (an uncoloured node reads as undefined, kept as an
Option). -/
def greedyColour (nodes : List Nat) (links : List (Nat × Nat)) :
    Option (List (Option Nat)) :=
  (greedyLoop nodes (buildConflictGraph links) (nodes.length + 1) [] 0).map
    (fun colours => nodes.map (fun n => mapGet colours n))

/-- One step of the backward liveness scan of optimiseTransforms: drop the
write slot from the live set, then for each read slot record a conflict pair
against every currently live slot and add the read to the live set. The
JavaScript Set of fresh pair arrays never deduplicates, so the conflicts are a
list; the live set of numbers is a duplicate-free list iterated in insertion
order, exactly like a JavaScript Set. -/
def conflictStep (t : Transform) (st : List (Nat × Nat) × List Nat) :
    List (Nat × Nat) × List Nat :=
  let live := st.2.filter (fun x => !(x == t.write))
  t.reads.foldl (fun s j =>
    (s.1 ++ s.2.map (fun k => (j, k)),
     if j ∈ s.2 then s.2 else s.2 ++ [j])) (st.1, live)

/-- Conflict pairs of a transform list, scanning from the last transform
backwards. -/
def conflictsOf (graph : List Transform) : List (Nat × Nat) :=
  (graph.foldr (fun t st => conflictStep t st) ([], [])).1

/-- evaluationGraph.optimiseTransforms: build the conflict graph over the
transform indices, colour it greedily, and rewrite every slot through the
colour array. An out-of-range or missing colour is undefined in JavaScript;
the model aborts (unreachable whenever greedyColour succeeded over the
referenced slots). -/
def optimiseTransforms (graph : List Transform) : Option (List Transform) :=
  match greedyColour (List.range graph.length) (conflictsOf graph) with
  | none => none
  | some cols =>
    graph.mapM (fun t => do
      let w ← (cols[t.write]?).bind (fun x => x)
      let rs ← t.reads.mapM (fun r => (cols[r]?).bind (fun x => x))
      pure (⟨t.render, w, rs⟩ : Transform))

/-- The spec's own worked example (section 8): a source, a double step and an
increment step in a chain. -/
def chain3 : List Transform :=
  [⟨none, 0, []⟩, ⟨some 1, 1, [0]⟩, ⟨some 2, 2, [1]⟩]

/-- C1: optimiseTransforms crashes on the specification's own three-step chain
example. The chain produces no conflict pairs at all, so the conflict graph
has no entry for any slot; in the first colouring round addColour evaluates
graph.get(0).every on undefined — a TypeError. The same happens on every
nonempty transform list whose final write slot is never read, which includes
every nonempty output of toTransforms. -/
theorem C1_optimise_crashes : optimiseTransforms chain3 = none := by rfl

end Skoppig
